import Mathlib

/-!
# BlueMap `TileManager`: sliding tile window, spiral search and load pump

A shallow embedding of `BlueMapCore/src/main/webroot/js/libs/TileManager.js`.

* JavaScript numbers are modelled exactly: tile coordinates (results of
  `floor`) are integers, view-distance radii, tile sizes, offsets and world
  positions are rationals.  `NaN` appears at one place only (the read of the
  missing property `z` of a `Vector2`) and is modelled there explicitly.
* Tile objects live in a heap (`TileManager.loads`); the cache `this.tiles`
  holds references (indices) to them, as do the completion handlers of the
  loader promises.  Every `Tile` object is created by one dispatch in
  `tryLoadTile`, so heap cell `i` also carries the promise of dispatch `i`.
* The asynchronous behaviour is a transition system: an `Event` is a call of a
  method of the manager from outside or the settling of a loader promise.
-/

namespace BlueMap

/-! ## Collaborators -/

/-- The three.js `Vector2`: a pair of numbers with the components `x` and `y`. -/
structure Vector2 (α : Type) where
  x : α
  y : α
deriving DecidableEq

/-- Reading the property `z` of a `Vector2`.  The class has the components `x` and `y` only,
so the read yields `undefined`, modelled as `none`. -/
def Vector2.z {α : Type} (_ : Vector2 α) : Option α := none

/-- An object with the numeric properties `x` and `z`, as the callers pass for world
positions, the tile size and the tile offset. -/
structure Position where
  x : ℚ
  z : ℚ
deriving DecidableEq

/-- A handle of a renderable model produced by the tile loader. -/
abbrev Model := Nat

/-- The key of a tile in the cache object. -/
abbrev TileHash := Int × Int

/-- Modelled from the spec: `hashTile` of `utils.js` is not among the sources.  The spec calls it
a deterministic, collision-free stringification of the coordinate pair, so the pair itself
serves as the key. -/
def hashTile (x z : Int) : TileHash := (x, z)

/-- Modelled from the spec: the class `Tile` of `Tile.js` is not among the sources.  A tile entry
has its coordinate, the flags `isLoading` and `disposed` (both read or written by
`TileManager.js`) and the model handle it owns, present only once a load was installed. -/
structure Tile where
  x : Int
  z : Int
  isLoading : Bool
  disposed : Bool
  model : Option Model
deriving DecidableEq

/-- Modelled from the spec: `new Tile(scene, x, z)`, a fresh entry without a model. -/
def Tile.create (x z : Int) : Tile :=
  { x := x, z := z, isLoading := false, disposed := false, model := none }

/-- Modelled from the spec: `tile.setModel(model)` attaches the loaded model to the entry,
which takes ownership of it. -/
def Tile.setModel (t : Tile) (model : Model) : Tile :=
  { t with model := some model }

/-- Modelled from the spec: `tile.disposeModel()` marks the entry disposed and releases the
model handle it owns. -/
def Tile.disposeModel (t : Tile) : Tile :=
  { t with disposed := true, model := none }

/-- `Math.abs` on exact numbers. -/
def Math.abs (v : ℚ) : ℚ := if v < 0 then -v else v

/-- `Math.max` on exact numbers. -/
def Math.max (a b : ℚ) : ℚ := if a < b then b else a

/-- The test `Math.abs(a - b) > r` where the operand `b` may be `undefined`: then `a - b` is
`NaN`, `Math.abs(NaN)` is `NaN`, and every comparison with `NaN` is false. -/
def absDiffGt (a : Int) (b : Option Int) (r : ℚ) : Bool :=
  match b with
  | none => false
  | some b => decide (Math.abs (((a - b : Int) : ℚ)) > r)

/-! ## The cache object `this.tiles` -/

/-- The object `this.tiles`: its own properties in insertion order, each key bound to a
reference to a `Tile` object. -/
abbrev TileMap := List (TileHash × Nat)

/-- Property read `tiles[key]`; `none` is `undefined`. -/
def TileMap.get (ts : TileMap) (key : TileHash) : Option Nat :=
  match ts with
  | [] => none
  | (k, r) :: rest => if k = key then some r else TileMap.get rest key

/-- The statement `delete tiles[key]`. -/
def TileMap.delete (ts : TileMap) (key : TileHash) : TileMap :=
  match ts with
  | [] => []
  | (k, r) :: rest => if k = key then TileMap.delete rest key else (k, r) :: TileMap.delete rest key

/-- Overwriting the value of a key that is present. -/
def TileMap.replace (ts : TileMap) (key : TileHash) (ref : Nat) : TileMap :=
  match ts with
  | [] => []
  | (k, r) :: rest =>
    if k = key then (k, ref) :: TileMap.replace rest key ref
    else (k, r) :: TileMap.replace rest key ref

/-- Property write `tiles[key] = tile`: an existing property keeps its place, a new one is
added last. -/
def TileMap.set (ts : TileMap) (key : TileHash) (ref : Nat) : TileMap :=
  match TileMap.get ts key with
  | some _ => TileMap.replace ts key ref
  | none => ts ++ [(key, ref)]

/-- The array `Object.keys(tiles)`. -/
def TileMap.keys (ts : TileMap) : List TileHash := ts.map Prod.fst

/-! ## State -/

/-- One dispatch of `tryLoadTile`: the `Tile` object it created, the key its completion
handlers captured, and whether the loader promise has settled. -/
structure Load where
  tile : Tile
  tileHash : TileHash
  settled : Bool
deriving DecidableEq

/-- The fields of a `TileManager` together with the objects it shares with its environment:
the heap of `Tile` objects with their loader promises (`loads`), the flag
`blueMap.updateFrame`, and the models whose geometry was disposed by a completion handler. -/
structure TileManager where
  tileSize : Vector2 ℚ
  tileOffset : Vector2 ℚ
  viewDistanceX : ℚ
  viewDistanceZ : ℚ
  tile : Vector2 Int
  lastTile : Vector2 Int
  closed : Bool
  currentlyLoading : Int
  updateTimeout : Bool
  tiles : TileMap
  loads : List Load
  updateFrame : Bool
  disposedGeometry : List Model
deriving DecidableEq

namespace TileManager

/-- The `Tile` object behind a reference. -/
def tileAt (s : TileManager) (ref : Nat) : Option Tile :=
  (s.loads[ref]?).map Load.tile

/-- Mutating the `Tile` object behind a reference. -/
def modifyTile (loads : List Load) (ref : Nat) (f : Tile → Tile) : List Load :=
  match loads[ref]? with
  | some ld => loads.set ref { ld with tile := f ld.tile }
  | none => loads

/-- The constructor, lines 33 to 50, with the body of `setViewDistance` in place of the call
of line 37.  The center tile is computed from the position without subtracting the tile
offset. -/
def construct (viewDistance : ℚ) (tileSize tileOffset position : Position) : TileManager :=
  let size : Vector2 ℚ := ⟨tileSize.x, tileSize.z⟩
  let tile : Vector2 Int := ⟨⌊position.x / size.x⌋, ⌊position.z / size.y⌋⟩
  { tileSize := size
    tileOffset := ⟨tileOffset.x, tileOffset.z⟩
    viewDistanceX := viewDistance / size.x
    viewDistanceZ := viewDistance / size.y
    tile := tile
    lastTile := tile
    closed := false
    currentlyLoading := 0
    updateTimeout := false
    tiles := []
    loads := []
    updateFrame := false
    disposedGeometry := [] }

/-- The method `setViewDistance`, lines 52 to 55. -/
def setViewDistance (s : TileManager) (viewDistance : ℚ) : TileManager :=
  { s with
    viewDistanceX := viewDistance / s.tileSize.x
    viewDistanceZ := viewDistance / s.tileSize.y }

/-- The condition of lines 87 to 92: the tile lies outside the window around the center. -/
def isFar (s : TileManager) (t : Tile) : Bool :=
  decide ((t.x : ℚ) + s.viewDistanceX < (s.tile.x : ℚ)) ||
  decide ((t.x : ℚ) - s.viewDistanceX > (s.tile.x : ℚ)) ||
  decide ((t.z : ℚ) + s.viewDistanceZ < (s.tile.y : ℚ)) ||
  decide ((t.z : ℚ) - s.viewDistanceZ > (s.tile.y : ℚ))

/-- One iteration of the loop of `removeFarTiles`, lines 80 to 97, for the key `keys[i]`. -/
def removeFarTilesIter (s : TileManager) (key : TileHash) : TileManager :=
  match s.tiles.get key with
  | none => s
  | some ref =>
    match s.tileAt ref with
    | none => s
    | some tile =>
      if s.isFar tile then
        { s with
          loads := modifyTile s.loads ref Tile.disposeModel
          tiles := s.tiles.delete key
          updateFrame := true }
      else s

/-- The method `removeFarTiles`, lines 77 to 99: the loop runs over the keys present at entry. -/
def removeFarTiles (s : TileManager) : TileManager :=
  s.tiles.keys.foldl removeFarTilesIter s

/-- One iteration of the loop of `removeAllTiles`, lines 104 to 108. -/
def removeAllTilesIter (s : TileManager) (key : TileHash) : TileManager :=
  match s.tiles.get key with
  | none => s
  | some ref =>
    { s with
      loads := modifyTile s.loads ref Tile.disposeModel
      tiles := s.tiles.delete key }

/-- The method `removeAllTiles`, lines 101 to 112. -/
def removeAllTiles (s : TileManager) : TileManager :=
  { s.tiles.keys.foldl removeAllTilesIter s with updateFrame := true }

/-- The method `close`, lines 114 to 117. -/
def close (s : TileManager) : TileManager :=
  removeAllTiles { s with closed := true }

/-- The synchronous part of `tryLoadTile`, lines 152 to 169 and 196: the guards, the creation of
the entry and the call of the tile loader, whose promise is the new cell of `loads`.  The
second component of the result is the state afterwards. -/
def tryLoadTile (s : TileManager) (x z : Int) : Bool × TileManager :=
  if s.closed then (false, s)
  else if Math.abs (((x - s.tile.x : Int) : ℚ)) > s.viewDistanceX then (false, s)
  else if absDiffGt z s.tile.z s.viewDistanceZ then (false, s)
  else
    let tileHash := hashTile x z
    match s.tiles.get tileHash with
    | some _ => (false, s)
    | none =>
      let tile : Tile := { Tile.create x z with isLoading := true }
      (true,
        { s with
          currentlyLoading := s.currentlyLoading + 1
          tiles := s.tiles.set tileHash s.loads.length
          loads := s.loads ++ [{ tile := tile, tileHash := tileHash, settled := false }] })

/-- The success handler of the loader promise of dispatch `i`, lines 170 to 186.  A promise
settles once: for a settled or unknown promise nothing happens. -/
def loadResolved (s : TileManager) (i : Nat) (model : Model) : TileManager :=
  match s.loads[i]? with
  | none => s
  | some ld =>
    if ld.settled then s
    else
      let tile : Tile := { ld.tile with isLoading := false }
      if tile.disposed || s.closed then
        { s with
          disposedGeometry := s.disposedGeometry ++ [model]
          loads := s.loads.set i { ld with tile := tile.disposeModel, settled := true }
          tiles := s.tiles.delete ld.tileHash }
      else
        { s with
          tiles := s.tiles.set ld.tileHash i
          loads := s.loads.set i { ld with tile := tile.setModel model, settled := true }
          updateFrame := true
          currentlyLoading :=
            if s.currentlyLoading - 1 < 0 then 0 else s.currentlyLoading - 1 }

/-- The failure handler of the loader promise of dispatch `i`, lines 187 to 194. -/
def loadRejected (s : TileManager) (i : Nat) : TileManager :=
  match s.loads[i]? with
  | none => s
  | some ld =>
    if ld.settled then s
    else
      let tile : Tile := { ld.tile with isLoading := false }
      { s with
        loads := s.loads.set i { ld with tile := tile.disposeModel, settled := true }
        currentlyLoading := s.currentlyLoading - 1 }

/-- The first inner loop of `loadNextTile`, lines 137 to 140, run for at most `fuel` tests of
its condition.  The result is `none` when the fuel does not suffice, otherwise whether the
method returned `true`, the state, and the value of `x`. -/
def xLoop : Nat → TileManager → Int → Int → Int → Int → Option (Bool × TileManager × Int)
  | 0, _, _, _, _, _ => none
  | fuel + 1, s, x, z, d, m =>
    if 2 * x * d < m then
      match s.tryLoadTile (s.tile.x + x) (s.tile.y + z) with
      | (true, s1) => some (true, s1, x)
      | (false, s1) => xLoop fuel s1 (x + d) z d m
    else some (false, s, x)

/-- The second inner loop of `loadNextTile`, lines 141 to 144, with the value of `z` in the
result. -/
def zLoop : Nat → TileManager → Int → Int → Int → Int → Option (Bool × TileManager × Int)
  | 0, _, _, _, _, _ => none
  | fuel + 1, s, x, z, d, m =>
    if 2 * z * d < m then
      match s.tryLoadTile (s.tile.x + x) (s.tile.y + z) with
      | (true, s1) => some (true, s1, z)
      | (false, s1) => zLoop fuel s1 x (z + d) d m
    else some (false, s, z)

/-- The outer loop of `loadNextTile`, lines 136 to 149; every loop may test its condition at
most `fuel` times. -/
def ringLoop (fuel : Nat) : Nat → TileManager → Int → Int → Int → Int → Option (Bool × TileManager)
  | 0, _, _, _, _, _ => none
  | n + 1, s, x, z, d, m =>
    if (m : ℚ) < Math.max s.viewDistanceX s.viewDistanceZ * 2 + 1 then
      match xLoop fuel s x z d m with
      | none => none
      | some (true, s1, _) => some (true, s1)
      | some (false, s1, x1) =>
        match zLoop fuel s1 x1 z d m with
        | none => none
        | some (true, s2, _) => some (true, s2)
        | some (false, s2, z1) => ringLoop fuel n s2 x1 z1 (-1 * d) (m + 1)
    else some (false, s)

/-- The method `loadNextTile`, lines 130 to 150, with a bound on the iterations of each loop. -/
def loadNextTileFuel (fuel : Nat) (s : TileManager) : Option (Bool × TileManager) :=
  ringLoop fuel fuel s 0 0 1 1

/-- A number of iterations that suffices for every loop of `loadNextTile`. -/
def spiralFuel (s : TileManager) : Nat :=
  (⌈Math.max s.viewDistanceX s.viewDistanceZ * 2 + 1⌉).toNat + 2

/-- The method `loadNextTile`, lines 130 to 150. -/
def loadNextTile (s : TileManager) : Bool × TileManager :=
  (loadNextTileFuel s.spiralFuel s).getD (false, s)

/-- The method `loadCloseTiles`, lines 119 to 128.  Scheduling the next pump iteration sets
`updateTimeout`. -/
def loadCloseTiles (s : TileManager) : TileManager :=
  if s.closed then s
  else if s.currentlyLoading < 8 then
    match s.loadNextTile with
    | (false, s1) => s1
    | (true, s1) => { s1 with updateTimeout := true }
  else { s with updateTimeout := true }

/-- The method `update`, lines 66 to 75. -/
def update (s : TileManager) : TileManager :=
  if s.closed then s
  else
    let s1 := { s with
      currentlyLoading := if s.currentlyLoading - 1 < 0 then 0 else s.currentlyLoading - 1 }
    loadCloseTiles (removeFarTiles s1)

/-- The method `setPosition`, lines 57 to 64. -/
def setPosition (s : TileManager) (center : Position) : TileManager :=
  let tile : Vector2 Int :=
    ⟨⌊(center.x - s.tileOffset.x) / s.tileSize.x⌋, ⌊(center.z - s.tileOffset.y) / s.tileSize.y⌋⟩
  let s1 := { s with tile := tile }
  if tile ≠ s1.lastTile ∧ s1.closed = false then
    { update s1 with lastTile := tile }
  else s1

end TileManager

/-! ## The transition system -/

/-- What can happen to a manager: a call of one of its methods, or the settling of the loader
promise of dispatch `i`. -/
inductive Event where
  | setPosition (center : Position)
  | update
  | loadCloseTiles
  | resolve (i : Nat) (model : Model)
  | reject (i : Nat)
  | tryLoadTile (x z : Int)
  | close
deriving DecidableEq

/-- The state after one event. -/
def step (s : TileManager) : Event → TileManager
  | .setPosition center => s.setPosition center
  | .update => s.update
  | .loadCloseTiles => s.loadCloseTiles
  | .resolve i model => s.loadResolved i model
  | .reject i => s.loadRejected i
  | .tryLoadTile x z => (s.tryLoadTile x z).2
  | .close => s.close

/-- The state after a sequence of events. -/
def run (s : TileManager) (events : List Event) : TileManager :=
  events.foldl step s

/-! ## Notions used in the statements -/

/-- The coordinates for which the tile loader was called, in the order of the calls. -/
def TileManager.dispatched (s : TileManager) : List (Int × Int) :=
  s.loads.map fun ld => (ld.tile.x, ld.tile.z)

/-- The number of unsettled promises among the loads. -/
def pendingOf (loads : List Load) : Nat :=
  (loads.filter fun ld => !ld.settled).length

/-- The number of loads handed to the tile loader whose promise has not settled yet. -/
def TileManager.pendingCount (s : TileManager) : Nat :=
  pendingOf s.loads

/-- The model attached to the `Tile` object behind a reference, if any. -/
def TileManager.modelAt (s : TileManager) (ref : Nat) : Option Model :=
  (s.tileAt ref).bind Tile.model

/-- The inclusive window of the spec: the coordinate lies within the radii of the center tile
on both axes. -/
def TileManager.inWindow (s : TileManager) (x z : Int) : Prop :=
  |((x - s.tile.x : Int) : ℚ)| ≤ s.viewDistanceX ∧ |((z - s.tile.y : Int) : ℚ)| ≤ s.viewDistanceZ

/-- The key is bound to a tile that the condition of `removeFarTiles` rejects. -/
def TileManager.farKey (s : TileManager) (key : TileHash) : Bool :=
  match s.tiles.get key with
  | none => false
  | some ref =>
    match s.tileAt ref with
    | none => false
    | some tile => s.isFar tile

/-- The state right after `tryLoadTile(x, z)` dispatched a load: the counter is raised, the new
entry is stored under its key, and the loader holds a new pending promise. -/
def TileManager.withLoad (s : TileManager) (x z : Int) : TileManager :=
  { s with
    currentlyLoading := s.currentlyLoading + 1
    tiles := s.tiles.set (hashTile x z) s.loads.length
    loads := s.loads ++
      [{ tile := { Tile.create x z with isLoading := true }, tileHash := hashTile x z,
         settled := false }] }

/-- The call `tryLoadTile(x, z)` passes the guards that can reject in the state `s`: the
manager is not closed, the coordinate is within the radius on the x axis, and the key has no
entry. -/
def TileManager.accepts (s : TileManager) (x z : Int) : Prop :=
  s.closed = false ∧ ¬ Math.abs (((x - s.tile.x : Int) : ℚ)) > s.viewDistanceX ∧
    s.tiles.get (hashTile x z) = none

/-- The state `s1` arises from `s` by one dispatch of `tryLoadTile`. -/
def TileManager.Dispatches (s s1 : TileManager) : Prop :=
  ∃ x z, s1 = s.withLoad x z ∧ s.accepts x z

/-- The events the reachability claims range over: `setPosition`, `update`, a pump iteration
and the settling of a load. -/
def Event.isDriver : Event → Bool
  | .setPosition _ => true
  | .update => true
  | .loadCloseTiles => true
  | .resolve _ _ => true
  | .reject _ => true
  | .tryLoadTile _ _ => false
  | .close => false

/-- The events that call `update`: `update` itself and `setPosition`. -/
def Event.isUpdate : Event → Bool
  | .setPosition _ => true
  | .update => true
  | _ => false

/-- The relation between the pending loads, the counter and a number `u` of slots freed by
`update`: the pending loads number at most the counter plus `u`, and the counter is at
most 8. -/
def TileManager.CounterBound (s : TileManager) (u : Int) : Prop :=
  (s.pendingCount : Int) ≤ s.currentlyLoading + u ∧ s.currentlyLoading ≤ 8

/-- The results of `n` successive calls of `loadNextTile` and the state after them. -/
def loadNextTileTimes : Nat → TileManager → List Bool × TileManager
  | 0, s => ([], s)
  | n + 1, s =>
    let r := s.loadNextTile
    let rest := loadNextTileTimes n r.2
    (r.1 :: rest.1, rest.2)

/-! ## Example states -/

/-- A cache with entries at x = -1, 0, 1, 3, 4, 5, 6, 7 (all at z = 0) after the center moved
from (0, 0) to (5, 0), with both radii 1. -/
def evictionExample : TileManager :=
  { tileSize := ⟨1, 1⟩
    tileOffset := ⟨0, 0⟩
    viewDistanceX := 1
    viewDistanceZ := 1
    tile := ⟨5, 0⟩
    lastTile := ⟨0, 0⟩
    closed := false
    currentlyLoading := 0
    updateTimeout := false
    tiles := [((-1, 0), 0), ((0, 0), 1), ((1, 0), 2), ((3, 0), 3), ((4, 0), 4), ((5, 0), 5),
      ((6, 0), 6), ((7, 0), 7)]
    loads := [(-1 : Int), 0, 1, 3, 4, 5, 6, 7].map fun x =>
      { tile := { Tile.create x 0 with model := some x.natAbs }, tileHash := (x, 0),
        settled := true }
    updateFrame := false
    disposedGeometry := [] }

/-- The manager of the spiral scenario: tiles of size 1, no offset, center tile (0, 0), both
radii equal to `r`, empty cache. -/
def spiralExample (r : ℚ) : TileManager :=
  TileManager.construct r ⟨1, 1⟩ ⟨0, 0⟩ ⟨0, 0⟩

/-- A manager whose window is the single tile (0, 0): tiles of size 2, view distance 1, so
both radii are 1/2. -/
def singleTileExample : TileManager :=
  TileManager.construct 1 ⟨2, 2⟩ ⟨0, 0⟩ ⟨0, 0⟩

/-- A manager with a window of 5 by 5 tiles around (0, 0): tiles of size 2, view distance 5,
so both radii are 5/2. -/
def wideExample : TileManager :=
  TileManager.construct 5 ⟨2, 2⟩ ⟨0, 0⟩ ⟨0, 0⟩

/-- A manager whose window is the single tile (0, 0) while the spiral runs for two rings:
tiles of size 1, both radii 3/4. -/
def narrowExample : TileManager :=
  TileManager.construct (3 / 4) ⟨1, 1⟩ ⟨0, 0⟩ ⟨0, 0⟩

/-- A manager built with a tile offset: tiles of size 1, offset (5, 0), view distance 1,
constructed at the world position (0, 0). -/
def offsetExample : TileManager :=
  TileManager.construct 1 ⟨1, 1⟩ ⟨5, 0⟩ ⟨0, 0⟩

/-- The Chebyshev distance of an offset from the center. -/
def chebyshev (p : Int × Int) : Int := max |p.1| |p.2|

/-- The first inner loop of `loadNextTile`, lines 137 to 140, with a record of its calls: the
last component of the result lists the offsets `(x, z)` at which `tryLoadTile` was called, in
the order of the calls. -/
def TileManager.xLoopTrace :
    Nat → TileManager → Int → Int → Int → Int →
      Option (Bool × TileManager × Int × List (Int × Int))
  | 0, _, _, _, _, _ => none
  | fuel + 1, s, x, z, d, m =>
    if 2 * x * d < m then
      match s.tryLoadTile (s.tile.x + x) (s.tile.y + z) with
      | (true, s1) => some (true, s1, x, [(x, z)])
      | (false, s1) =>
        match TileManager.xLoopTrace fuel s1 (x + d) z d m with
        | none => none
        | some (b, s2, x2, calls) => some (b, s2, x2, (x, z) :: calls)
    else some (false, s, x, [])

/-- The second inner loop of `loadNextTile`, lines 141 to 144, with a record of its calls. -/
def TileManager.zLoopTrace :
    Nat → TileManager → Int → Int → Int → Int →
      Option (Bool × TileManager × Int × List (Int × Int))
  | 0, _, _, _, _, _ => none
  | fuel + 1, s, x, z, d, m =>
    if 2 * z * d < m then
      match s.tryLoadTile (s.tile.x + x) (s.tile.y + z) with
      | (true, s1) => some (true, s1, z, [(x, z)])
      | (false, s1) =>
        match TileManager.zLoopTrace fuel s1 x (z + d) d m with
        | none => none
        | some (b, s2, z2, calls) => some (b, s2, z2, (x, z) :: calls)
    else some (false, s, z, [])

/-- The outer loop of `loadNextTile`, lines 136 to 149, with a record of its run: the number
of times its body was entered and the offsets at which `tryLoadTile` was called. -/
def TileManager.ringLoopTrace (fuel : Nat) :
    Nat → TileManager → Int → Int → Int → Int →
      Option (Bool × TileManager × Nat × List (Int × Int))
  | 0, _, _, _, _, _ => none
  | n + 1, s, x, z, d, m =>
    if (m : ℚ) < Math.max s.viewDistanceX s.viewDistanceZ * 2 + 1 then
      match TileManager.xLoopTrace fuel s x z d m with
      | none => none
      | some (true, s1, _, callsX) => some (true, s1, 1, callsX)
      | some (false, s1, x1, callsX) =>
        match TileManager.zLoopTrace fuel s1 x1 z d m with
        | none => none
        | some (true, s2, _, callsZ) => some (true, s2, 1, callsX ++ callsZ)
        | some (false, s2, z1, callsZ) =>
          match TileManager.ringLoopTrace fuel n s2 x1 z1 (-1 * d) (m + 1) with
          | none => none
          | some (b, s3, rings, rest) => some (b, s3, rings + 1, callsX ++ callsZ ++ rest)
    else some (false, s, 0, [])

/-- The method `loadNextTile` with the record of its run. -/
def TileManager.loadNextTileTrace (s : TileManager) :
    Bool × TileManager × Nat × List (Int × Int) :=
  (TileManager.ringLoopTrace s.spiralFuel s.spiralFuel s 0 0 1 1).getD (false, s, 0, [])

/-- The number of times one call of `loadNextTile` enters the body of its outer loop. -/
def TileManager.ringsRun (s : TileManager) : Nat := s.loadNextTileTrace.2.2.1

/-- The offsets from the center at which one call of `loadNextTile` calls `tryLoadTile`, in
the order of the calls. -/
def TileManager.visited (s : TileManager) : List (Int × Int) := s.loadNextTileTrace.2.2.2

/-! # Theorems -/

/-! ## The cache object: lookups after writes -/

theorem TileMap.get_delete (ts : TileMap) (k key : TileHash) :
    (ts.delete k).get key = if k = key then none else ts.get key := by
  induction ts with
  | nil => simp [TileMap.delete, TileMap.get]
  | cons e rest ih =>
    obtain ⟨k0, r0⟩ := e
    by_cases h2 : k = key
    · subst h2
      simp only [if_true] at ih
      by_cases h : k0 = k
      · simp [TileMap.delete, h, ih]
      · simp [TileMap.delete, TileMap.get, h, ih]
    · simp only [h2, if_false] at ih
      by_cases h : k0 = k
      · have h3 : ¬ k0 = key := by rw [h]; exact h2
        simp [TileMap.delete, TileMap.get, h, h2, ih]
      · simp [TileMap.delete, TileMap.get, h, h2, ih]

theorem TileMap.get_replace (ts : TileMap) (k key : TileHash) (ref : Nat) :
    (ts.replace k ref).get key =
      if k = key then (ts.get key).map (fun _ => ref) else ts.get key := by
  induction ts with
  | nil => simp [TileMap.replace, TileMap.get]
  | cons e rest ih =>
    obtain ⟨k0, r0⟩ := e
    by_cases h2 : k = key
    · subst h2
      simp only [if_true] at ih
      by_cases h : k0 = k
      · simp [TileMap.replace, TileMap.get, h]
      · simp [TileMap.replace, TileMap.get, h, ih]
    · simp only [h2, if_false] at ih
      by_cases h : k0 = k
      · have h3 : ¬ k0 = key := by rw [h]; exact h2
        simp [TileMap.replace, TileMap.get, h, h2, ih]
      · simp [TileMap.replace, TileMap.get, h, h2, ih]

theorem TileMap.get_append_single (ts : TileMap) (k key : TileHash) (ref : Nat) :
    TileMap.get (ts ++ [(k, ref)]) key =
      match ts.get key with
      | some r => some r
      | none => if k = key then some ref else none := by
  induction ts with
  | nil => simp [TileMap.get]
  | cons e rest ih =>
    obtain ⟨k0, r0⟩ := e
    by_cases h : k0 = key
    · simp [TileMap.get, h]
    · simp [TileMap.get, h, ih]

theorem TileMap.get_set (ts : TileMap) (k key : TileHash) (ref : Nat) :
    (ts.set k ref).get key = if k = key then some ref else ts.get key := by
  unfold TileMap.set
  cases hk : ts.get k with
  | none =>
    simp only [TileMap.get_append_single]
    by_cases h : k = key
    · subst h; simp [hk]
    · simp only [h, if_false]
      cases ts.get key <;> rfl
  | some r =>
    simp only [TileMap.get_replace]
    by_cases h : k = key
    · subst h; simp [hk]
    · simp [h]

theorem TileMap.get_eq_none_of_not_mem (ts : TileMap) (key : TileHash) (h : key ∉ ts.keys) :
    ts.get key = none := by
  induction ts with
  | nil => rfl
  | cons e rest ih =>
    obtain ⟨k0, r0⟩ := e
    simp only [TileMap.keys, List.map_cons, List.mem_cons, not_or] at h
    have h1 : ¬ k0 = key := fun hh => h.1 hh.symm
    simp only [TileMap.get, h1, if_false]
    exact ih h.2

theorem TileMap.mem_keys_of_get (ts : TileMap) (key : TileHash) (ref : Nat)
    (h : ts.get key = some ref) : key ∈ ts.keys := by
  by_contra hn
  rw [TileMap.get_eq_none_of_not_mem ts key hn] at h
  exact Option.noConfusion h

theorem TileMap.delete_of_get_none (ts : TileMap) (k : TileHash) (h : ts.get k = none) :
    ts.delete k = ts := by
  induction ts with
  | nil => rfl
  | cons e rest ih =>
    obtain ⟨k0, r0⟩ := e
    by_cases hk : k0 = k
    · simp [TileMap.get, hk] at h
    · simp only [TileMap.get, hk, if_false] at h
      simp [TileMap.delete, hk, ih h]

theorem TileMap.mem_keys_delete (ts : TileMap) (k key : TileHash)
    (h : key ∈ (ts.delete k).keys) : key ∈ ts.keys ∧ key ≠ k := by
  induction ts with
  | nil => simp [TileMap.delete, TileMap.keys] at h
  | cons e rest ih =>
    obtain ⟨k0, r0⟩ := e
    by_cases hk : k0 = k
    · simp only [TileMap.delete, hk, if_true] at h
      have := ih h
      exact ⟨by simp [TileMap.keys] at this ⊢; exact Or.inr this.1, this.2⟩
    · simp only [TileMap.delete, hk, if_false, TileMap.keys, List.map_cons, List.mem_cons] at h
      rcases h with h | h
      · subst h
        exact ⟨by simp [TileMap.keys], hk⟩
      · have := ih h
        exact ⟨by simp [TileMap.keys] at this ⊢; exact Or.inr this.1, this.2⟩

theorem TileMap.foldl_delete_keys (ks : List TileHash) (ts : TileMap)
    (h : ∀ k, k ∈ ts.keys → k ∈ ks) : ks.foldl TileMap.delete ts = [] := by
  induction ks generalizing ts with
  | nil =>
    cases ts with
    | nil => rfl
    | cons e rest =>
      have := h e.1 (by simp [TileMap.keys])
      simp at this
  | cons k ks ih =>
    rw [List.foldl_cons]
    apply ih
    intro k1 hk1
    obtain ⟨hm, hne⟩ := TileMap.mem_keys_delete ts k k1 hk1
    rcases List.mem_cons.mp (h k1 hm) with h1 | h1
    · exact absurd h1 hne
    · exact h1

/-! ## What one search dispatches -/

namespace TileManager

theorem tryLoadTile_cases (s : TileManager) (x z : Int) :
    s.tryLoadTile x z = (false, s) ∨
    (s.tryLoadTile x z = (true, s.withLoad x z) ∧ s.accepts x z) := by
  unfold tryLoadTile accepts
  by_cases hc : s.closed = true
  · left; rw [if_pos hc]
  · rw [if_neg hc]
    by_cases hx : Math.abs (((x - s.tile.x : Int) : ℚ)) > s.viewDistanceX
    · left; rw [if_pos hx]
    · rw [if_neg hx]
      have hz : absDiffGt z s.tile.z s.viewDistanceZ = false := rfl
      rw [hz]
      simp only [Bool.false_eq_true, if_false]
      cases hg : s.tiles.get (hashTile x z) with
      | some r => left; rfl
      | none =>
        right
        exact ⟨rfl, by simpa using hc, hx, rfl⟩

theorem xLoop_cases (fuel : Nat) (s : TileManager) (x z d m : Int) (b : Bool)
    (s1 : TileManager) (x1 : Int) (h : xLoop fuel s x z d m = some (b, s1, x1)) :
    (b = false ∧ s1 = s) ∨ (b = true ∧ Dispatches s s1) := by
  induction fuel generalizing x with
  | zero => simp [xLoop] at h
  | succ n ih =>
    unfold xLoop at h
    split at h
    · rcases tryLoadTile_cases s (s.tile.x + x) (s.tile.y + z) with hc | ⟨hc, ha⟩
      · rw [hc] at h
        exact ih _ h
      · rw [hc] at h
        simp only [Option.some.injEq, Prod.mk.injEq] at h
        right
        exact ⟨h.1.symm, _, _, h.2.1.symm, ha⟩
    · simp only [Option.some.injEq, Prod.mk.injEq] at h
      left
      exact ⟨h.1.symm, h.2.1.symm⟩

theorem zLoop_cases (fuel : Nat) (s : TileManager) (x z d m : Int) (b : Bool)
    (s1 : TileManager) (z1 : Int) (h : zLoop fuel s x z d m = some (b, s1, z1)) :
    (b = false ∧ s1 = s) ∨ (b = true ∧ Dispatches s s1) := by
  induction fuel generalizing z with
  | zero => simp [zLoop] at h
  | succ n ih =>
    unfold zLoop at h
    split at h
    · rcases tryLoadTile_cases s (s.tile.x + x) (s.tile.y + z) with hc | ⟨hc, ha⟩
      · rw [hc] at h
        exact ih _ h
      · rw [hc] at h
        simp only [Option.some.injEq, Prod.mk.injEq] at h
        right
        exact ⟨h.1.symm, _, _, h.2.1.symm, ha⟩
    · simp only [Option.some.injEq, Prod.mk.injEq] at h
      left
      exact ⟨h.1.symm, h.2.1.symm⟩

theorem ringLoop_cases (fuel n : Nat) (s : TileManager) (x z d m : Int) (b : Bool)
    (s1 : TileManager) (h : ringLoop fuel n s x z d m = some (b, s1)) :
    (b = false ∧ s1 = s) ∨ (b = true ∧ Dispatches s s1) := by
  induction n generalizing x z d m with
  | zero => simp [ringLoop] at h
  | succ n ih =>
    unfold ringLoop at h
    split at h
    · cases hx : xLoop fuel s x z d m with
      | none => simp [hx] at h
      | some rx =>
        obtain ⟨bx, sx, x1⟩ := rx
        rcases xLoop_cases fuel s x z d m bx sx x1 hx with ⟨hb, hs⟩ | ⟨hb, hs⟩
        · subst hb; subst hs
          simp only [hx] at h
          cases hz : zLoop fuel sx x1 z d m with
          | none => simp [hz] at h
          | some rz =>
            obtain ⟨bz, sz, z1⟩ := rz
            rcases zLoop_cases fuel sx x1 z d m bz sz z1 hz with ⟨hb, hs⟩ | ⟨hb, hs⟩
            · subst hb; subst hs
              simp only [hz] at h
              exact ih _ _ _ _ h
            · subst hb
              simp only [hz, Option.some.injEq, Prod.mk.injEq] at h
              right
              rw [← h.1, ← h.2]
              exact ⟨rfl, hs⟩
        · subst hb
          simp only [hx, Option.some.injEq, Prod.mk.injEq] at h
          right
          rw [← h.1, ← h.2]
          exact ⟨rfl, hs⟩
    · simp only [Option.some.injEq, Prod.mk.injEq] at h
      left
      exact ⟨h.1.symm, h.2.symm⟩

theorem loadNextTile_cases (s : TileManager) :
    s.loadNextTile = (false, s) ∨ ∃ s1, s.loadNextTile = (true, s1) ∧ Dispatches s s1 := by
  unfold loadNextTile loadNextTileFuel
  cases h : ringLoop s.spiralFuel s.spiralFuel s 0 0 1 1 with
  | none => left; rfl
  | some r =>
    obtain ⟨b, s1⟩ := r
    rcases ringLoop_cases _ _ s 0 0 1 1 b s1 h with ⟨hb, hs⟩ | ⟨hb, hs⟩
    · left; simp [hb, hs]
    · right; exact ⟨s1, by simp [hb], hs⟩

end TileManager

/-! ## The search terminates -/

namespace TileManager

theorem xLoop_some (fuel : Nat) (s : TileManager) (x z d m : Int) (hd : d = 1 ∨ d = -1)
    (hf : ((m - 2 * (x * d) + 1) / 2).toNat < fuel) :
    ∃ r, xLoop fuel s x z d m = some r := by
  induction fuel generalizing x with
  | zero => omega
  | succ n ih =>
    unfold xLoop
    split
    · rename_i hlt
      rcases tryLoadTile_cases s (s.tile.x + x) (s.tile.y + z) with hc | ⟨hc, _⟩
      · rw [hc]
        apply ih
        have hk : (x + d) * d = x * d + 1 := by
          rcases hd with hd | hd <;> subst hd <;> ring
        rw [hk]
        rw [mul_assoc] at hlt
        omega
      · rw [hc]
        exact ⟨_, rfl⟩
    · exact ⟨_, rfl⟩

theorem zLoop_some (fuel : Nat) (s : TileManager) (x z d m : Int) (hd : d = 1 ∨ d = -1)
    (hf : ((m - 2 * (z * d) + 1) / 2).toNat < fuel) :
    ∃ r, zLoop fuel s x z d m = some r := by
  induction fuel generalizing z with
  | zero => omega
  | succ n ih =>
    unfold zLoop
    split
    · rename_i hlt
      rcases tryLoadTile_cases s (s.tile.x + x) (s.tile.y + z) with hc | ⟨hc, _⟩
      · rw [hc]
        apply ih
        have hk : (z + d) * d = z * d + 1 := by
          rcases hd with hd | hd <;> subst hd <;> ring
        rw [hk]
        rw [mul_assoc] at hlt
        omega
      · rw [hc]
        exact ⟨_, rfl⟩
    · exact ⟨_, rfl⟩

theorem xLoop_exit (fuel : Nat) (s : TileManager) (x z d m : Int) (s1 : TileManager)
    (x1 : Int) (hd : d = 1 ∨ d = -1) (h : xLoop fuel s x z d m = some (false, s1, x1)) :
    m ≤ 2 * (x1 * d) ∧ (2 * (x1 * d) < m + 2 ∨ x1 = x) := by
  induction fuel generalizing x with
  | zero => simp [xLoop] at h
  | succ n ih =>
    unfold xLoop at h
    split at h
    · rename_i hlt
      rcases tryLoadTile_cases s (s.tile.x + x) (s.tile.y + z) with hc | ⟨hc, _⟩
      · rw [hc] at h
        obtain ⟨h1, h2⟩ := ih _ h
        refine ⟨h1, Or.inl ?_⟩
        rcases h2 with h2 | h2
        · exact h2
        · have hk : (x + d) * d = x * d + 1 := by
            rcases hd with hd | hd <;> subst hd <;> ring
          rw [h2, hk]
          rw [mul_assoc] at hlt
          omega
      · rw [hc] at h
        simp at h
    · rename_i hlt
      simp only [Option.some.injEq, Prod.mk.injEq, true_and] at h
      rw [← h.2]
      rw [mul_assoc] at hlt
      exact ⟨by omega, Or.inr rfl⟩

theorem zLoop_exit (fuel : Nat) (s : TileManager) (x z d m : Int) (s1 : TileManager)
    (z1 : Int) (hd : d = 1 ∨ d = -1) (h : zLoop fuel s x z d m = some (false, s1, z1)) :
    m ≤ 2 * (z1 * d) ∧ (2 * (z1 * d) < m + 2 ∨ z1 = z) := by
  induction fuel generalizing z with
  | zero => simp [zLoop] at h
  | succ n ih =>
    unfold zLoop at h
    split at h
    · rename_i hlt
      rcases tryLoadTile_cases s (s.tile.x + x) (s.tile.y + z) with hc | ⟨hc, _⟩
      · rw [hc] at h
        obtain ⟨h1, h2⟩ := ih _ h
        refine ⟨h1, Or.inl ?_⟩
        rcases h2 with h2 | h2
        · exact h2
        · have hk : (z + d) * d = z * d + 1 := by
            rcases hd with hd | hd <;> subst hd <;> ring
          rw [h2, hk]
          rw [mul_assoc] at hlt
          omega
      · rw [hc] at h
        simp at h
    · rename_i hlt
      simp only [Option.some.injEq, Prod.mk.injEq, true_and] at h
      rw [← h.2]
      rw [mul_assoc] at hlt
      exact ⟨by omega, Or.inr rfl⟩

theorem ringLoop_some (fuel n : Nat) (s : TileManager) (x z d m : Int)
    (hd : d = 1 ∨ d = -1) (hm : 1 ≤ m)
    (hx : -m ≤ 2 * (x * d) ∧ 2 * (x * d) < m) (hz : -m ≤ 2 * (z * d) ∧ 2 * (z * d) < m)
    (hfuel : (⌈Math.max s.viewDistanceX s.viewDistanceZ * 2 + 1⌉).toNat ≤ fuel)
    (hn : (⌈Math.max s.viewDistanceX s.viewDistanceZ * 2 + 1⌉ - m).toNat < n) :
    ∃ r, ringLoop fuel n s x z d m = some r := by
  induction n generalizing x z d m with
  | zero => omega
  | succ n ih =>
    unfold ringLoop
    split
    · rename_i hlt
      have hmB : m < ⌈Math.max s.viewDistanceX s.viewDistanceZ * 2 + 1⌉ := Int.lt_ceil.mpr hlt
      obtain ⟨rx, hrx⟩ := xLoop_some fuel s x z d m hd (by omega)
      obtain ⟨bx, sx, x1⟩ := rx
      rw [hrx]
      cases bx with
      | true => exact ⟨_, rfl⟩
      | false =>
        have hsx : sx = s := by
          rcases xLoop_cases fuel s x z d m false sx x1 hrx with ⟨_, hs⟩ | ⟨hb, _⟩
          · exact hs
          · exact absurd hb (by decide)
        subst hsx
        obtain ⟨ex1, ex2⟩ := xLoop_exit fuel sx x z d m sx x1 hd hrx
        have ex3 : 2 * (x1 * d) < m + 2 := by
          rcases ex2 with ex2 | ex2
          · exact ex2
          · rw [ex2]; omega
        obtain ⟨rz, hrz⟩ := zLoop_some fuel sx x1 z d m hd (by omega)
        obtain ⟨bz, sz, z1⟩ := rz
        simp only [hrz]
        cases bz with
        | true => exact ⟨_, rfl⟩
        | false =>
          have hsz : sz = sx := by
            rcases zLoop_cases fuel sx x1 z d m false sz z1 hrz with ⟨_, hs⟩ | ⟨hb, _⟩
            · exact hs
            · exact absurd hb (by decide)
          subst hsz
          obtain ⟨ez1, ez2⟩ := zLoop_exit fuel sz x1 z d m sz z1 hd hrz
          have ez3 : 2 * (z1 * d) < m + 2 := by
            rcases ez2 with ez2 | ez2
            · exact ez2
            · rw [ez2]; omega
          have hxd : x1 * (-1 * d) = -(x1 * d) := by ring
          have hzd : z1 * (-1 * d) = -(z1 * d) := by ring
          apply ih
          · rcases hd with hd | hd <;> subst hd <;> simp
          · omega
          · rw [hxd]; constructor <;> omega
          · rw [hzd]; constructor <;> omega
          · omega
    · exact ⟨_, rfl⟩

/-- The iteration bound built into `loadNextTile` is never reached: with `spiralFuel`
iterations for each loop the method returns. -/
theorem loadNextTileFuel_spiralFuel (s : TileManager) :
    loadNextTileFuel s.spiralFuel s = some s.loadNextTile := by
  obtain ⟨r, hr⟩ := ringLoop_some s.spiralFuel s.spiralFuel s 0 0 1 1 (Or.inl rfl) (le_refl _)
    (by constructor <;> simp) (by constructor <;> simp)
    (by unfold spiralFuel; omega) (by unfold spiralFuel; omega)
  unfold loadNextTile loadNextTileFuel
  rw [hr]
  rfl

end TileManager

/-! ## Eviction -/

namespace TileManager

theorem tileAt_modifyTile (loads : List Load) (ref i : Nat) (f : Tile → Tile) :
    ((modifyTile loads ref f)[i]?).map Load.tile =
      if i = ref then ((loads[i]?).map Load.tile).map f else (loads[i]?).map Load.tile := by
  unfold modifyTile
  cases h : loads[ref]? with
  | none =>
    by_cases hi : i = ref
    · subst hi; simp [h]
    · simp [hi]
  | some ld =>
    have hlt : ref < loads.length := by
      rcases List.getElem?_eq_some.mp h with ⟨hl, _⟩
      exact hl
    by_cases hi : i = ref
    · subst hi
      simp [List.getElem?_set, hlt, h]
    · have hne : ¬ ref = i := fun hh => hi hh.symm
      simp [List.getElem?_set, hi, hne]

theorem isFar_eq_true_iff (s : TileManager) (t : Tile) :
    s.isFar t = true ↔ ¬ s.inWindow t.x t.z := by
  unfold isFar inWindow
  simp only [Bool.or_eq_true, decide_eq_true_eq, abs_le, Int.cast_sub, gt_iff_lt]
  constructor
  · rintro (((h | h) | h) | h) ⟨⟨h1, h2⟩, ⟨h3, h4⟩⟩ <;> linarith
  · intro h
    by_contra hc
    simp only [not_or, not_lt] at hc
    obtain ⟨⟨⟨h1, h2⟩, h3⟩, h4⟩ := hc
    exact h ⟨⟨by linarith, by linarith⟩, ⟨by linarith, by linarith⟩⟩

theorem isFar_disposeModel (s : TileManager) (t : Tile) :
    s.isFar t.disposeModel = s.isFar t := rfl

theorem removeFarTilesIter_eq (s : TileManager) (k : TileHash) :
    s.removeFarTilesIter k =
      if s.farKey k = true then
        { s with
          loads := modifyTile s.loads ((s.tiles.get k).getD 0) Tile.disposeModel
          tiles := s.tiles.delete k
          updateFrame := true }
      else s := by
  unfold removeFarTilesIter farKey
  cases h1 : s.tiles.get k with
  | none => simp
  | some ref =>
    simp only [Option.getD_some]
    cases h2 : s.tileAt ref with
    | none => simp
    | some t => simp


theorem farKey_get (s : TileManager) (k : TileHash) (h : s.farKey k = true) :
    ∃ ref t, s.tiles.get k = some ref ∧ s.tileAt ref = some t ∧ s.isFar t = true := by
  unfold farKey at h
  cases h1 : s.tiles.get k with
  | none => simp [h1] at h
  | some ref =>
    simp only [h1] at h
    cases h2 : s.tileAt ref with
    | none => simp [h2] at h
    | some t =>
      simp only [h2] at h
      exact ⟨ref, t, rfl, h2, h⟩

theorem farKey_of_get (s : TileManager) (k : TileHash) (ref : Nat) (t : Tile)
    (h1 : s.tiles.get k = some ref) (h2 : s.tileAt ref = some t) :
    s.farKey k = s.isFar t := by
  simp [farKey, h1, h2]

theorem removeFarTilesIter_get (s : TileManager) (k key : TileHash) :
    (s.removeFarTilesIter k).tiles.get key =
      if k = key ∧ s.farKey k = true then none else s.tiles.get key := by
  rw [removeFarTilesIter_eq]
  by_cases hf : s.farKey k = true
  · simp only [hf, if_true, TileMap.get_delete, and_true]
  · simp [hf]

theorem removeFarTilesIter_tileAt (s : TileManager) (k : TileHash) (ref : Nat) :
    (s.removeFarTilesIter k).tileAt ref =
      if s.farKey k = true ∧ s.tiles.get k = some ref then (s.tileAt ref).map Tile.disposeModel
      else s.tileAt ref := by
  rw [removeFarTilesIter_eq]
  by_cases hf : s.farKey k = true
  · obtain ⟨r0, t, h1, _, _⟩ := farKey_get s k hf
    simp only [hf, if_true, true_and, h1, Option.getD_some, tileAt, tileAt_modifyTile,
      Option.some.injEq]
    by_cases hr : ref = r0
    · subst hr; simp
    · have hr2 : ¬ r0 = ref := fun hh => hr hh.symm
      simp [hr, hr2]
  · simp [hf]

theorem removeFarTilesIter_isFar (s : TileManager) (k : TileHash) (t : Tile) :
    (s.removeFarTilesIter k).isFar t = s.isFar t := by
  rw [removeFarTilesIter_eq]
  by_cases hf : s.farKey k = true
  · simp only [hf, if_true]; rfl
  · simp [hf]

theorem removeFarTilesIter_farKey (s : TileManager) (k key : TileHash) (h : k ≠ key) :
    (s.removeFarTilesIter k).farKey key = s.farKey key := by
  have hg : (s.removeFarTilesIter k).tiles.get key = s.tiles.get key := by
    rw [removeFarTilesIter_get]; simp [h]
  unfold farKey
  rw [hg]
  cases h1 : s.tiles.get key with
  | none => rfl
  | some ref =>
    simp only [removeFarTilesIter_tileAt, removeFarTilesIter_isFar]
    by_cases hc : s.farKey k = true ∧ s.tiles.get k = some ref
    · simp only [hc, and_self, if_true]
      cases h2 : s.tileAt ref with
      | none => rfl
      | some t => simp [isFar_disposeModel]
    · simp only [hc, if_false]

theorem removeFarTiles_fold_get (ks : List TileHash) (s : TileManager) (key : TileHash) :
    (ks.foldl removeFarTilesIter s).tiles.get key =
      if key ∈ ks ∧ s.farKey key = true then none else s.tiles.get key := by
  induction ks generalizing s with
  | nil => simp
  | cons k ks ih =>
    rw [List.foldl_cons, ih]
    by_cases hk : k = key
    · subst hk
      by_cases hf : s.farKey k = true
      · simp [removeFarTilesIter_get, hf]
      · have : s.removeFarTilesIter k = s := by rw [removeFarTilesIter_eq]; simp [hf]
        simp [this, hf]
    · have hk2 : ¬ key = k := fun hh => hk hh.symm
      rw [removeFarTilesIter_farKey s k key hk, removeFarTilesIter_get]
      simp [hk, hk2]

theorem removeFarTiles_fold_tileAt (ks : List TileHash) (s : TileManager) (ref : Nat) :
    (ks.foldl removeFarTilesIter s).tileAt ref =
      if ∃ k, k ∈ ks ∧ s.farKey k = true ∧ s.tiles.get k = some ref then
        (s.tileAt ref).map Tile.disposeModel
      else s.tileAt ref := by
  induction ks generalizing s with
  | nil => simp
  | cons k ks ih =>
    rw [List.foldl_cons, ih]
    by_cases hf : s.farKey k = true
    · obtain ⟨r0, t, h1, h2, h3⟩ := farKey_get s k hf
      have hcond : ∀ k1, k1 ∈ ks →
          (((s.removeFarTilesIter k).farKey k1 = true ∧
            (s.removeFarTilesIter k).tiles.get k1 = some ref) ↔
           (k1 ≠ k ∧ s.farKey k1 = true ∧ s.tiles.get k1 = some ref)) := by
        intro k1 _
        by_cases hk : k = k1
        · subst hk
          simp [removeFarTilesIter_get, hf]
        · have hk2 : k1 ≠ k := fun hh => hk hh.symm
          rw [removeFarTilesIter_farKey s k k1 hk, removeFarTilesIter_get]
          simp [hk, hk2]
      by_cases hr : ref = r0
      · subst hr
        have hex : ∃ k1, k1 ∈ k :: ks ∧ s.farKey k1 = true ∧ s.tiles.get k1 = some ref :=
          ⟨k, List.mem_cons_self _ _, hf, h1⟩
        rw [if_pos hex]
        have hs1 : (s.removeFarTilesIter k).tileAt ref = (s.tileAt ref).map Tile.disposeModel := by
          rw [removeFarTilesIter_tileAt]; simp [hf, h1]
        rw [hs1]
        split
        · rw [h2]; rfl
        · rfl
      · have hs1 : (s.removeFarTilesIter k).tileAt ref = s.tileAt ref := by
          rw [removeFarTilesIter_tileAt]
          have : ¬ r0 = ref := fun hh => hr hh.symm
          simp [hf, h1, this]
        rw [hs1]
        have hiff : (∃ k1, k1 ∈ ks ∧ (s.removeFarTilesIter k).farKey k1 = true ∧
              (s.removeFarTilesIter k).tiles.get k1 = some ref) ↔
            (∃ k1, k1 ∈ k :: ks ∧ s.farKey k1 = true ∧ s.tiles.get k1 = some ref) := by
          constructor
          · rintro ⟨k1, hm, hc⟩
            have := (hcond k1 hm).mp hc
            exact ⟨k1, List.mem_cons_of_mem _ hm, this.2⟩
          · rintro ⟨k1, hm, hc1, hc2⟩
            rcases List.mem_cons.mp hm with hm | hm
            · subst hm
              rw [h1] at hc2
              exact absurd (Option.some.inj hc2).symm hr
            · have hne : k1 ≠ k := by
                intro hh
                subst hh
                rw [h1] at hc2
                exact hr (Option.some.inj hc2).symm
              exact ⟨k1, hm, (hcond k1 hm).mpr ⟨hne, hc1, hc2⟩⟩
        simp only [hiff]
    · have hs : s.removeFarTilesIter k = s := by rw [removeFarTilesIter_eq]; simp [hf]
      rw [hs]
      have hiff : (∃ k1, k1 ∈ ks ∧ s.farKey k1 = true ∧ s.tiles.get k1 = some ref) ↔
          (∃ k1, k1 ∈ k :: ks ∧ s.farKey k1 = true ∧ s.tiles.get k1 = some ref) := by
        constructor
        · rintro ⟨k1, hm, hc⟩
          exact ⟨k1, List.mem_cons_of_mem _ hm, hc⟩
        · rintro ⟨k1, hm, hc1, hc2⟩
          rcases List.mem_cons.mp hm with hm | hm
          · subst hm; exact absurd hc1 hf
          · exact ⟨k1, hm, hc1, hc2⟩
      simp only [hiff]


/-- Claim C1.  `removeFarTiles` keeps exactly the entries inside the inclusive window around
the current center: it adds no entry; an entry stored under `key` whose tile has the
coordinate `(t.x, t.z)` is still stored there afterwards if and only if
`|t.x - cx| ≤ vdx` and `|t.z - cz| ≤ vdz`; an entry that stays is not touched; an entry that
goes is deleted from the cache and `disposeModel` was called on its tile. -/
theorem removeFarTiles_window (s : TileManager) (key : TileHash) (ref : Nat) (t : Tile)
    (hget : s.tiles.get key = some ref) (ht : s.tileAt ref = some t) :
    (∀ k r, s.removeFarTiles.tiles.get k = some r → s.tiles.get k = some r) ∧
    (s.removeFarTiles.tiles.get key = some ref ↔ s.inWindow t.x t.z) ∧
    (s.inWindow t.x t.z → s.removeFarTiles.tileAt ref = some t) ∧
    (¬ s.inWindow t.x t.z →
      s.removeFarTiles.tiles.get key = none ∧
      s.removeFarTiles.tileAt ref = some t.disposeModel) := by
  have hfar : s.farKey key = true ↔ ¬ s.inWindow t.x t.z := by
    rw [farKey_of_get s key ref t hget ht, isFar_eq_true_iff]
  have hmem : key ∈ s.tiles.keys := TileMap.mem_keys_of_get s.tiles key ref hget
  have hkey : s.removeFarTiles.tiles.get key =
      if s.farKey key = true then none else some ref := by
    unfold removeFarTiles
    rw [removeFarTiles_fold_get, ← hget]
    simp [hmem]
  refine ⟨?_, ?_, ?_, ?_⟩
  · intro k r hk
    unfold removeFarTiles at hk
    rw [removeFarTiles_fold_get] at hk
    split at hk
    · exact Option.noConfusion hk
    · exact hk
  · rw [hkey]
    by_cases hf : s.farKey key = true
    · rw [if_pos hf]
      constructor
      · intro h; exact Option.noConfusion h
      · intro h; exact absurd h (hfar.mp hf)
    · rw [if_neg hf]
      constructor
      · intro _
        by_contra hw
        exact hf (hfar.mpr hw)
      · intro _; rfl
  · intro hw
    unfold removeFarTiles
    rw [removeFarTiles_fold_tileAt, if_neg, ht]
    rintro ⟨k1, _, hf1, hg1⟩
    rw [farKey_of_get s k1 ref t hg1 ht, isFar_eq_true_iff] at hf1
    exact hf1 hw
  · intro hw
    constructor
    · rw [hkey, if_pos (hfar.mpr hw)]
    · unfold removeFarTiles
      rw [removeFarTiles_fold_tileAt, if_pos ⟨key, hmem, hfar.mpr hw, hget⟩, ht]
      rfl


theorem removeFarTiles_window_witness :
    (evictionExample.removeFarTiles.tiles.get (3, 0) = none ∧
      evictionExample.removeFarTiles.tileAt 3 =
        some { x := 3, z := 0, isLoading := false, disposed := true, model := none }) ∧
    evictionExample.removeFarTiles.tiles.keys = [(4, 0), (5, 0), (6, 0)] :=
  ⟨(removeFarTiles_window evictionExample (3, 0) 3
      { x := 3, z := 0, isLoading := false, disposed := false, model := some 3 }
      (by decide) (by decide)).2.2.2
      (by simp [inWindow, evictionExample]),
    by with_unfolding_all decide⟩

end TileManager

/-! ## The spiral at a whole-numbered radius -/

/-- Claim C2, at the radius 1 the claim names.  Six calls of `loadNextTile` dispatch loads for
(0,0), (1,0), (1,1), (0,1), (-1,1), (-1,0); the seventh call returns false and dispatches
nothing, although (-1,-1), (0,-1) and (1,-1) lie inside the window and have no entry: the
loop condition `m < 3` stops the spiral before the ring `m = 3`. -/
theorem loadNextTile_radius_one_six_of_nine :
    (loadNextTileTimes 7 (spiralExample 1)).1 = [true, true, true, true, true, true, false] ∧
    (loadNextTileTimes 7 (spiralExample 1)).2.dispatched =
      [(0, 0), (1, 0), (1, 1), (0, 1), (-1, 1), (-1, 0)] ∧
    (loadNextTileTimes 7 (spiralExample 1)).2.tiles.get (hashTile (-1) (-1)) = none ∧
    (loadNextTileTimes 7 (spiralExample 1)).2.tiles.get (hashTile 0 (-1)) = none ∧
    (loadNextTileTimes 7 (spiralExample 1)).2.tiles.get (hashTile 1 (-1)) = none := by
  with_unfolding_all decide

/-- The scenario of claim C2 at the radius 3/2: nine calls of `loadNextTile` dispatch the nine
tiles of the window in spiral order, and the tenth call returns false. -/
theorem loadNextTile_radius_three_halves_nine :
    (loadNextTileTimes 10 (spiralExample (3 / 2))).1 =
      [true, true, true, true, true, true, true, true, true, false] ∧
    (loadNextTileTimes 10 (spiralExample (3 / 2))).2.dispatched =
      [(0, 0), (1, 0), (1, 1), (0, 1), (-1, 1), (-1, 0), (-1, -1), (0, -1), (1, -1)] := by
  with_unfolding_all decide

/-- The scenario of claim C2 at the radius 7/4: after the nine tiles of the window the next
three calls dispatch loads for (1,2), (0,2) and (-1,2), which lie outside the window on the
z axis, because the guard on z in `tryLoadTile` never rejects. -/
theorem loadNextTile_radius_seven_quarters_twelve :
    (loadNextTileTimes 13 (spiralExample (7 / 4))).1 =
      [true, true, true, true, true, true, true, true, true, true, true, true, false] ∧
    (loadNextTileTimes 13 (spiralExample (7 / 4))).2.dispatched =
      [(0, 0), (1, 0), (1, 1), (0, 1), (-1, 1), (-1, 0), (-1, -1), (0, -1), (1, -1),
        (1, 2), (0, 2), (-1, 2)] := by
  with_unfolding_all decide

set_option maxRecDepth 100000 in
/-- Claim C3, at radius 1.  With the six entries the spiral reaches in the cache, the
coordinate (-1,-1) lies inside the window and has no entry, the manager is not closed, and
`loadNextTile` returns false without changing the state. -/
theorem loadNextTile_false_with_missing_tile :
    (loadNextTileTimes 6 (spiralExample 1)).2.closed = false ∧
    (loadNextTileTimes 6 (spiralExample 1)).2.inWindow (-1) (-1) ∧
    (loadNextTileTimes 6 (spiralExample 1)).2.tiles.get (hashTile (-1) (-1)) = none ∧
    (loadNextTileTimes 6 (spiralExample 1)).2.loadNextTile =
      (false, (loadNextTileTimes 6 (spiralExample 1)).2) := by
  have hx : (loadNextTileTimes 6 (spiralExample 1)).2.viewDistanceX = 1 := by
    with_unfolding_all decide
  have hz : (loadNextTileTimes 6 (spiralExample 1)).2.viewDistanceZ = 1 := by
    with_unfolding_all decide
  have ht : (loadNextTileTimes 6 (spiralExample 1)).2.tile = ⟨0, 0⟩ := by
    with_unfolding_all decide
  refine ⟨by with_unfolding_all decide, ?_, by with_unfolding_all decide,
    by with_unfolding_all decide⟩
  unfold TileManager.inWindow
  rw [hx, hz, ht]
  norm_num

/-! ## The guard on the z axis -/

/-- Claim C4, on the z axis.  With the center (0, 0) and both radii 1, the coordinate (0, 5)
lies 5 tiles from the center on the z axis, yet `tryLoadTile(0, 5)` returns true, stores an
entry, raises the counter and calls the loader: the guard of line 155 reads `this.tile.z`,
which a `Vector2` does not have. -/
theorem tryLoadTile_dispatches_outside_z_radius :
    (spiralExample 1).tile = ⟨0, 0⟩ ∧ (spiralExample 1).viewDistanceZ = 1 ∧
    ((spiralExample 1).tryLoadTile 0 5).1 = true ∧
    ((spiralExample 1).tryLoadTile 0 5).2.tiles = [((0, 5), 0)] ∧
    ((spiralExample 1).tryLoadTile 0 5).2.currentlyLoading = 1 ∧
    ((spiralExample 1).tryLoadTile 0 5).2.dispatched = [(0, 5)] := by
  with_unfolding_all decide

/-- The guard on the x axis of `tryLoadTile` works: a coordinate outside the radius on the
x axis is rejected and the state is not changed. -/
theorem TileManager.tryLoadTile_rejects_outside_x_radius (s : TileManager) (x z : Int)
    (h : |((x - s.tile.x : Int) : ℚ)| > s.viewDistanceX) :
    s.tryLoadTile x z = (false, s) := by
  have habs : Math.abs (((x - s.tile.x : Int) : ℚ)) = |((x - s.tile.x : Int) : ℚ)| := by
    unfold Math.abs
    split
    · rename_i hneg; rw [abs_of_neg hneg]
    · rename_i hneg; rw [abs_of_nonneg (not_lt.mp hneg)]
  unfold TileManager.tryLoadTile
  split
  · rfl
  · rw [if_pos (by rw [habs]; exact h)]

/-! ## Completions that arrive late -/

/-- Claim C5.  Events: `update` dispatches load 0 for (0,0); the center moves to tile (5,0) and
back to (0,0), which evicts the entry of load 0 and dispatches load 2 for (0,0); load 0
resolves and its discard branch deletes the key of (0,0), under which the entry of load 2 is
stored.  Load 2 is then still pending, loading and not disposed, and the next pump iteration
dispatches load 3 for the same coordinate. -/
theorem duplicate_dispatch_after_discard :
    (run singleTileExample
      [.update, .setPosition ⟨10, 0⟩, .setPosition ⟨0, 0⟩, .resolve 0 7]).loads[2]? =
        some { tile := { x := 0, z := 0, isLoading := true, disposed := false, model := none },
               tileHash := (0, 0), settled := false } ∧
    (run singleTileExample
      [.update, .setPosition ⟨10, 0⟩, .setPosition ⟨0, 0⟩, .resolve 0 7]).tiles = [] ∧
    (run singleTileExample
      [.update, .setPosition ⟨10, 0⟩, .setPosition ⟨0, 0⟩, .resolve 0 7,
        .loadCloseTiles]).loads.drop 2 =
      [{ tile := { x := 0, z := 0, isLoading := true, disposed := false, model := none },
         tileHash := (0, 0), settled := false },
       { tile := { x := 0, z := 0, isLoading := true, disposed := false, model := none },
         tileHash := (0, 0), settled := false }] := by
  with_unfolding_all decide

namespace TileManager

/-- Claim C9.  When the load `i`, dispatched for the coordinate `(x, z)`, resolves with `model`
after its entry was marked disposed (as eviction by `removeFarTiles` does), the result is
discarded: the geometry of `model` is disposed, the entry stays without a model and disposed,
the in-flight counter keeps its value, and the cache has no entry under the key of
`(x, z)` afterwards. -/
theorem loadResolved_discards_evicted (s : TileManager) (i : Nat) (ld : Load) (model : Model)
    (x z : Int) (hld : s.loads[i]? = some ld) (hpending : ld.settled = false)
    (hkey : ld.tileHash = hashTile x z) (hdisposed : ld.tile.disposed = true) :
    (s.loadResolved i model).disposedGeometry = s.disposedGeometry ++ [model] ∧
    (s.loadResolved i model).tileAt i =
      some { ld.tile with isLoading := false, disposed := true, model := none } ∧
    (s.loadResolved i model).currentlyLoading = s.currentlyLoading ∧
    (s.loadResolved i model).tiles.get (hashTile x z) = none ∧
    (∀ ref t, ref ≠ i → ((s.loadResolved i model).tileAt ref = some t ↔ s.tileAt ref = some t)) := by
  have hlt : i < s.loads.length := (List.getElem?_eq_some.mp hld).1
  have hres : s.loadResolved i model =
      { s with
        disposedGeometry := s.disposedGeometry ++ [model]
        loads := s.loads.set i
          { ld with tile := Tile.disposeModel { ld.tile with isLoading := false },
                    settled := true }
        tiles := s.tiles.delete ld.tileHash } := by
    unfold loadResolved
    simp [hld, hpending, hdisposed]
  rw [hres]
  refine ⟨rfl, ?_, rfl, ?_, ?_⟩
  · simp [tileAt, List.getElem?_set, hlt, Tile.disposeModel]
  · simp [TileMap.get_delete, hkey]
  · intro ref t hne
    have hne2 : ¬ i = ref := fun hh => hne hh.symm
    simp [tileAt, List.getElem?_set, hne2]

theorem loadResolved_discards_evicted_witness :
    (run wideExample [.tryLoadTile 2 2, .setPosition ⟨20, 0⟩, .resolve 0 7]).disposedGeometry
      = [7] ∧
    (run wideExample [.tryLoadTile 2 2, .setPosition ⟨20, 0⟩, .resolve 0 7]).tileAt 0 =
      some { x := 2, z := 2, isLoading := false, disposed := true, model := none } ∧
    (run wideExample [.tryLoadTile 2 2, .setPosition ⟨20, 0⟩, .resolve 0 7]).currentlyLoading
      = 1 ∧
    (run wideExample [.tryLoadTile 2 2, .setPosition ⟨20, 0⟩, .resolve 0 7]).tiles.get
      (hashTile 2 2) = none := by
  have h := loadResolved_discards_evicted
    (run wideExample [.tryLoadTile 2 2, .setPosition ⟨20, 0⟩]) 0
    { tile := { x := 2, z := 2, isLoading := true, disposed := true, model := none },
      tileHash := (2, 2), settled := false } 7 2 2
    (by with_unfolding_all decide) rfl rfl rfl
  have hc : (run wideExample [.tryLoadTile 2 2, .setPosition ⟨20, 0⟩]).currentlyLoading = 1 := by
    with_unfolding_all decide
  have hg : (run wideExample [.tryLoadTile 2 2, .setPosition ⟨20, 0⟩]).disposedGeometry = [] := by
    with_unfolding_all decide
  rw [hc, hg] at h
  exact ⟨h.1, h.2.1, h.2.2.1, h.2.2.2.1⟩

end TileManager

/-! ## The counter -/

theorem pendingOf_append_single (l : List Load) (ld : Load) :
    pendingOf (l ++ [ld]) = pendingOf l + (if ld.settled then 0 else 1) := by
  unfold pendingOf
  rw [List.filter_append, List.length_append]
  cases h : ld.settled <;> simp [List.filter, h]

theorem pendingOf_set (l : List Load) (i : Nat) (ld ld1 : Load) (h : l[i]? = some ld) :
    pendingOf (l.set i ld1) + (if ld.settled then 0 else 1) =
      pendingOf l + (if ld1.settled then 0 else 1) := by
  induction l generalizing i with
  | nil => simp at h
  | cons a rest ih =>
    cases i with
    | zero =>
      simp only [List.getElem?_cons_zero, Option.some.injEq] at h
      subst h
      simp only [List.set_cons_zero, pendingOf, List.filter_cons]
      cases h1 : a.settled <;> cases h2 : ld1.settled <;> simp
    | succ j =>
      simp only [List.getElem?_cons_succ] at h
      have := ih j h
      simp only [List.set_cons_succ, pendingOf, List.filter_cons] at this ⊢
      cases h1 : a.settled <;> simp [h1] <;> omega

theorem pendingOf_modifyTile (l : List Load) (ref : Nat) (f : Tile → Tile) :
    pendingOf (TileManager.modifyTile l ref f) = pendingOf l := by
  unfold TileManager.modifyTile
  cases h : l[ref]? with
  | none => rfl
  | some ld =>
    have := pendingOf_set l ref ld { ld with tile := f ld.tile } h
    simpa using this

namespace TileManager

theorem pendingCount_eq (s : TileManager) : s.pendingCount = pendingOf s.loads := rfl

theorem removeFarTilesIter_frame (s : TileManager) (k : TileHash) :
    (s.removeFarTilesIter k).pendingCount = s.pendingCount ∧
    (s.removeFarTilesIter k).currentlyLoading = s.currentlyLoading ∧
    (s.removeFarTilesIter k).closed = s.closed := by
  rw [removeFarTilesIter_eq]
  split
  · exact ⟨by simp [pendingCount_eq, pendingOf_modifyTile], rfl, rfl⟩
  · exact ⟨rfl, rfl, rfl⟩

theorem removeFarTiles_frame (s : TileManager) :
    s.removeFarTiles.pendingCount = s.pendingCount ∧
    s.removeFarTiles.currentlyLoading = s.currentlyLoading ∧
    s.removeFarTiles.closed = s.closed := by
  have h : ∀ (ks : List TileHash) (s1 : TileManager),
      (ks.foldl removeFarTilesIter s1).pendingCount = s1.pendingCount ∧
      (ks.foldl removeFarTilesIter s1).currentlyLoading = s1.currentlyLoading ∧
      (ks.foldl removeFarTilesIter s1).closed = s1.closed := by
    intro ks
    induction ks with
    | nil => intro s1; exact ⟨rfl, rfl, rfl⟩
    | cons k ks ih =>
      intro s1
      rw [List.foldl_cons]
      obtain ⟨h1, h2, h3⟩ := ih (s1.removeFarTilesIter k)
      obtain ⟨h4, h5, h6⟩ := removeFarTilesIter_frame s1 k
      exact ⟨h1.trans h4, h2.trans h5, h3.trans h6⟩
  exact h _ s

theorem withLoad_pendingCount (s : TileManager) (x z : Int) :
    (s.withLoad x z).pendingCount = s.pendingCount + 1 := by
  simp [pendingCount_eq, withLoad, pendingOf_append_single]

theorem loadCloseTiles_bound (s : TileManager) (u : Int) (h : s.CounterBound u) :
    s.loadCloseTiles.CounterBound u := by
  unfold loadCloseTiles
  split
  · exact h
  · split
    · rename_i hlt
      rcases loadNextTile_cases s with hn | ⟨s1, hn, x, z, hs1, _⟩
      · rw [hn]; exact h
      · rw [hn]
        subst hs1
        obtain ⟨h1, h2⟩ := h
        constructor
        · show (((s.withLoad x z).pendingCount : Nat) : Int) ≤ (s.currentlyLoading + 1) + u
          rw [withLoad_pendingCount]
          push_cast
          linarith
        · show s.currentlyLoading + 1 ≤ 8
          omega
    · exact h

theorem update_bound (s : TileManager) (u : Int) (h : s.CounterBound u) :
    s.update.CounterBound (u + 1) := by
  unfold update
  split
  · exact ⟨by have := h.1; linarith, h.2⟩
  · apply loadCloseTiles_bound
    obtain ⟨h1, h2⟩ := h
    obtain ⟨f1, f2, _⟩ := removeFarTiles_frame
      { s with currentlyLoading :=
          if s.currentlyLoading - 1 < 0 then 0 else s.currentlyLoading - 1 }
    unfold CounterBound
    rw [f1, f2]
    show (s.pendingCount : Int) ≤
        (if s.currentlyLoading - 1 < 0 then 0 else s.currentlyLoading - 1) + (u + 1) ∧
      (if s.currentlyLoading - 1 < 0 then 0 else s.currentlyLoading - 1) ≤ 8
    split <;> constructor <;> omega

theorem setPosition_bound (s : TileManager) (center : Position) (u : Int)
    (h : s.CounterBound u) : (s.setPosition center).CounterBound (u + 1) := by
  unfold setPosition
  simp only
  split
  · exact update_bound { s with tile := _ } u h
  · exact ⟨by have := h.1; show (s.pendingCount : Int) ≤ s.currentlyLoading + (u + 1); linarith,
      h.2⟩

theorem loadResolved_bound (s : TileManager) (i : Nat) (model : Model) (u : Int)
    (h : s.CounterBound u) : (s.loadResolved i model).CounterBound u := by
  unfold loadResolved
  cases hld : s.loads[i]? with
  | none => exact h
  | some ld =>
    simp only
    split
    · exact h
    · rename_i hs
      obtain ⟨h1, h2⟩ := h
      split
      · have hp := pendingOf_set s.loads i ld
          { ld with tile := Tile.disposeModel { ld.tile with isLoading := false },
                    settled := true } hld
        simp only [hs, Bool.false_eq_true, if_false, if_true] at hp
        constructor
        · show ((pendingOf (s.loads.set i _) : Nat) : Int) ≤ s.currentlyLoading + u
          rw [pendingCount_eq] at h1
          omega
        · exact h2
      · have hp := pendingOf_set s.loads i ld
          { ld with tile := Tile.setModel { ld.tile with isLoading := false } model,
                    settled := true } hld
        simp only [hs, Bool.false_eq_true, if_false, if_true] at hp
        rw [pendingCount_eq] at h1
        constructor
        · show ((pendingOf (s.loads.set i _) : Nat) : Int) ≤
            (if s.currentlyLoading - 1 < 0 then 0 else s.currentlyLoading - 1) + u
          split <;> omega
        · show (if s.currentlyLoading - 1 < 0 then 0 else s.currentlyLoading - 1) ≤ 8
          split <;> omega

theorem loadRejected_bound (s : TileManager) (i : Nat) (u : Int)
    (h : s.CounterBound u) : (s.loadRejected i).CounterBound u := by
  unfold loadRejected
  cases hld : s.loads[i]? with
  | none => exact h
  | some ld =>
    simp only
    split
    · exact h
    · rename_i hs
      obtain ⟨h1, h2⟩ := h
      have hp := pendingOf_set s.loads i ld
        { ld with tile := Tile.disposeModel { ld.tile with isLoading := false },
                  settled := true } hld
      simp only [hs, Bool.false_eq_true, if_false, if_true] at hp
      rw [pendingCount_eq] at h1
      constructor
      · show ((pendingOf (s.loads.set i _) : Nat) : Int) ≤ (s.currentlyLoading - 1) + u
        omega
      · show s.currentlyLoading - 1 ≤ 8
        omega

theorem step_bound (s : TileManager) (e : Event) (u : Int) (hd : e.isDriver = true)
    (h : s.CounterBound u) :
    (step s e).CounterBound (u + (if e.isUpdate then 1 else 0)) := by
  cases e with
  | setPosition center => simpa [step, Event.isUpdate] using setPosition_bound s center u h
  | update => simpa [step, Event.isUpdate] using update_bound s u h
  | loadCloseTiles => simpa [step, Event.isUpdate] using loadCloseTiles_bound s u h
  | resolve i model => simpa [step, Event.isUpdate] using loadResolved_bound s i model u h
  | reject i => simpa [step, Event.isUpdate] using loadRejected_bound s i u h
  | tryLoadTile x z => simp [Event.isDriver] at hd
  | close => simp [Event.isDriver] at hd

theorem run_bound (events : List Event) (s : TileManager) (u : Int)
    (hd : ∀ e, e ∈ events → e.isDriver = true) (h : s.CounterBound u) :
    (run s events).CounterBound (u + ((events.filter Event.isUpdate).length : Int)) := by
  induction events generalizing s u with
  | nil => simpa [run] using h
  | cons e es ih =>
    have h1 := step_bound s e u (hd e (List.mem_cons_self _ _)) h
    have h2 := ih (step s e) _ (fun e1 he1 => hd e1 (List.mem_cons_of_mem _ he1)) h1
    have hrun : run s (e :: es) = run (step s e) es := rfl
    rw [hrun]
    cases hu : e.isUpdate
    · simp only [hu, List.filter_cons, Bool.false_eq_true, if_false, add_zero] at h2 ⊢
      exact h2
    · simp only [hu, List.filter_cons, if_true, List.length_cons, Nat.cast_add, Nat.cast_one]
        at h2 ⊢
      have e1 : u + 1 + ((List.filter Event.isUpdate es).length : Int) =
          u + (((List.filter Event.isUpdate es).length : Int) + 1) := by ring
      rw [← e1]
      exact h2

theorem construct_bound (viewDistance : ℚ) (tileSize tileOffset position : Position) :
    (construct viewDistance tileSize tileOffset position).CounterBound 0 := by
  unfold CounterBound construct pendingCount pendingOf
  simp

/-- Claim C6, amended.  In every state reached from construction by calls of `setPosition`
and `update`, pump iterations and loads that resolve or fail, the number of loads handed to
the tile loader that have not settled yet is at most 8 plus the number of `setPosition` and
`update` calls made so far: each run of `update` frees one slot of the counter although no
load has settled. -/
theorem pending_le_eight_plus_updates (viewDistance : ℚ)
    (tileSize tileOffset position : Position) (events : List Event)
    (hd : ∀ e, e ∈ events → e.isDriver = true) :
    (run (construct viewDistance tileSize tileOffset position) events).pendingCount ≤
      8 + (events.filter Event.isUpdate).length := by
  obtain ⟨h1, h2⟩ := run_bound events _ 0 hd
    (construct_bound viewDistance tileSize tileOffset position)
  omega

theorem pending_le_eight_plus_updates_witness :
    (run wideExample
        [.update, .loadCloseTiles, .loadCloseTiles, .loadCloseTiles, .loadCloseTiles,
          .loadCloseTiles, .loadCloseTiles, .loadCloseTiles, .update]).pendingCount ≤ 8 + 2 :=
  pending_le_eight_plus_updates 5 ⟨2, 2⟩ ⟨0, 0⟩ ⟨0, 0⟩
    [.update, .loadCloseTiles, .loadCloseTiles, .loadCloseTiles, .loadCloseTiles,
      .loadCloseTiles, .loadCloseTiles, .loadCloseTiles, .update] (by decide)

end TileManager

set_option maxRecDepth 100000 in
/-- Claim C6 fails as stated: after `update` and seven pump iterations eight loads are
pending and the counter is 8; a further `update` lowers the counter to 7 and dispatches a
ninth load while the eight are still pending. -/
theorem nine_loads_pending :
    ¬ (run wideExample
        [.update, .loadCloseTiles, .loadCloseTiles, .loadCloseTiles, .loadCloseTiles,
          .loadCloseTiles, .loadCloseTiles, .loadCloseTiles, .update]).pendingCount ≤ 8 := by
  with_unfolding_all decide

/-- Claim C7.  `update` dispatches the load of (0,0) and sets the counter to 1, a second
`update` lowers it to 0, and the failure handler of the load then makes it -1. -/
theorem counter_negative_after_failure :
    (run singleTileExample [.update, .update]).currentlyLoading = 0 ∧
    (run singleTileExample [.update, .update, .reject 0]).currentlyLoading = -1 := by
  with_unfolding_all decide

/-! ## Closing -/

namespace TileManager

theorem removeAllTilesIter_tiles (s : TileManager) (k : TileHash) :
    (s.removeAllTilesIter k).tiles = s.tiles.delete k := by
  unfold removeAllTilesIter
  cases h : s.tiles.get k with
  | none => simp [TileMap.delete_of_get_none s.tiles k h]
  | some ref => rfl

theorem removeAllTilesIter_tileAt (s : TileManager) (k : TileHash) (ref : Nat) :
    (s.removeAllTilesIter k).tileAt ref =
      if s.tiles.get k = some ref then (s.tileAt ref).map Tile.disposeModel
      else s.tileAt ref := by
  unfold removeAllTilesIter
  cases h : s.tiles.get k with
  | none => simp
  | some r0 =>
    simp only [tileAt, tileAt_modifyTile, Option.some.injEq]
    by_cases hr : ref = r0
    · subst hr; simp
    · have hr2 : ¬ r0 = ref := fun hh => hr hh.symm
      simp [hr, hr2]

theorem removeAllTiles_fold_tiles (ks : List TileHash) (s : TileManager) :
    (ks.foldl removeAllTilesIter s).tiles = ks.foldl TileMap.delete s.tiles := by
  induction ks generalizing s with
  | nil => rfl
  | cons k ks ih => rw [List.foldl_cons, List.foldl_cons, ih, removeAllTilesIter_tiles]

theorem removeAllTiles_fold_tileAt (ks : List TileHash) (s : TileManager) (ref : Nat) :
    (ks.foldl removeAllTilesIter s).tileAt ref =
      if ∃ k, k ∈ ks ∧ s.tiles.get k = some ref then (s.tileAt ref).map Tile.disposeModel
      else s.tileAt ref := by
  induction ks generalizing s with
  | nil => simp
  | cons k ks ih =>
    rw [List.foldl_cons, ih]
    have hcond : ∀ k1, ((s.removeAllTilesIter k).tiles.get k1 = some ref ↔
        (k1 ≠ k ∧ s.tiles.get k1 = some ref)) := by
      intro k1
      rw [removeAllTilesIter_tiles, TileMap.get_delete]
      by_cases hk : k = k1
      · subst hk; simp
      · have hk2 : k1 ≠ k := fun hh => hk hh.symm
        simp [hk, hk2]
    by_cases hg : s.tiles.get k = some ref
    · have hex : ∃ k1, k1 ∈ k :: ks ∧ s.tiles.get k1 = some ref :=
        ⟨k, List.mem_cons_self _ _, hg⟩
      rw [if_pos hex, removeAllTilesIter_tileAt, if_pos hg]
      split
      · cases s.tileAt ref <;> rfl
      · rfl
    · rw [removeAllTilesIter_tileAt, if_neg hg]
      have hiff : (∃ k1, k1 ∈ ks ∧ (s.removeAllTilesIter k).tiles.get k1 = some ref) ↔
          (∃ k1, k1 ∈ k :: ks ∧ s.tiles.get k1 = some ref) := by
        constructor
        · rintro ⟨k1, hm, hc⟩
          exact ⟨k1, List.mem_cons_of_mem _ hm, ((hcond k1).mp hc).2⟩
        · rintro ⟨k1, hm, hc⟩
          rcases List.mem_cons.mp hm with hm | hm
          · subst hm; exact absurd hc hg
          · have hne : k1 ≠ k := by
              intro hh; subst hh; exact hg hc
            exact ⟨k1, hm, (hcond k1).mpr ⟨hne, hc⟩⟩
      simp only [hiff]

theorem close_tiles (s : TileManager) : s.close.tiles = [] := by
  unfold close removeAllTiles
  show (List.foldl removeAllTilesIter _ _).tiles = []
  rw [removeAllTiles_fold_tiles]
  exact TileMap.foldl_delete_keys _ _ (fun k hk => hk)

theorem close_closed (s : TileManager) : s.close.closed = true := by
  have h : ∀ (ks : List TileHash) (s1 : TileManager),
      (ks.foldl removeAllTilesIter s1).closed = s1.closed := by
    intro ks
    induction ks with
    | nil => intro s1; rfl
    | cons k ks ih =>
      intro s1
      rw [List.foldl_cons, ih]
      unfold removeAllTilesIter
      cases s1.tiles.get k <;> rfl
  unfold close removeAllTiles
  show (List.foldl removeAllTilesIter _ _).closed = true
  rw [h]

theorem close_tileAt (s : TileManager) (key : TileHash) (ref : Nat) (t : Tile)
    (hget : s.tiles.get key = some ref) (ht : s.tileAt ref = some t) :
    s.close.tileAt ref = some t.disposeModel := by
  unfold close removeAllTiles
  show (List.foldl removeAllTilesIter _ _).tileAt ref = _
  rw [removeAllTiles_fold_tileAt, if_pos ⟨key, TileMap.mem_keys_of_get _ _ _ hget, hget⟩]
  show (s.tileAt ref).map Tile.disposeModel = _
  rw [ht]; rfl

/-- A closed manager with an empty cache stays so under every event, and no event attaches a
model to a tile. -/
theorem step_closed_empty (s : TileManager) (e : Event) (hc : s.closed = true)
    (ht : s.tiles = []) :
    (step s e).closed = true ∧ (step s e).tiles = [] ∧
    ∀ ref m, (step s e).modelAt ref = some m → s.modelAt ref = some m := by
  cases e with
  | setPosition center =>
    have : s.setPosition center =
        { s with tile := ⟨⌊(center.x - s.tileOffset.x) / s.tileSize.x⌋,
                          ⌊(center.z - s.tileOffset.y) / s.tileSize.y⌋⟩ } := by
      unfold setPosition
      simp [hc]
    simp only [step, this]
    exact ⟨hc, ht, fun _ _ h => h⟩
  | update =>
    have : s.update = s := by unfold update; simp [hc]
    simp only [step, this]
    exact ⟨hc, ht, fun _ _ h => h⟩
  | loadCloseTiles =>
    have : s.loadCloseTiles = s := by unfold loadCloseTiles; simp [hc]
    simp only [step, this]
    exact ⟨hc, ht, fun _ _ h => h⟩
  | tryLoadTile x z =>
    have : s.tryLoadTile x z = (false, s) := by unfold tryLoadTile; simp [hc]
    simp only [step, this]
    exact ⟨hc, ht, fun _ _ h => h⟩
  | close =>
    have : s.close = { s with updateFrame := true } := by
      unfold close removeAllTiles
      simp [ht, hc, TileMap.keys]
    simp only [step, this]
    exact ⟨hc, ht, fun _ _ h => h⟩
  | resolve i model =>
    simp only [step]
    cases hld : s.loads[i]? with
    | none =>
      have : s.loadResolved i model = s := by unfold loadResolved; simp [hld]
      rw [this]
      exact ⟨hc, ht, fun _ _ h => h⟩
    | some ld =>
      by_cases hs : ld.settled = true
      · have : s.loadResolved i model = s := by unfold loadResolved; simp [hld, hs]
        rw [this]
        exact ⟨hc, ht, fun _ _ h => h⟩
      · have hlt : i < s.loads.length := (List.getElem?_eq_some.mp hld).1
        have hres : s.loadResolved i model =
            { s with
              disposedGeometry := s.disposedGeometry ++ [model]
              loads := s.loads.set i
                { ld with tile := Tile.disposeModel { ld.tile with isLoading := false },
                          settled := true }
              tiles := s.tiles.delete ld.tileHash } := by
          unfold loadResolved
          simp [hld, hs, hc]
        rw [hres]
        refine ⟨hc, by simp [ht, TileMap.delete], ?_⟩
        intro ref m h
        by_cases hr : i = ref
        · subst hr
          simp [modelAt, tileAt, List.getElem?_set, hlt, Tile.disposeModel] at h
        · simpa [modelAt, tileAt, List.getElem?_set, hr] using h
  | reject i =>
    simp only [step]
    cases hld : s.loads[i]? with
    | none =>
      have : s.loadRejected i = s := by unfold loadRejected; simp [hld]
      rw [this]
      exact ⟨hc, ht, fun _ _ h => h⟩
    | some ld =>
      by_cases hs : ld.settled = true
      · have : s.loadRejected i = s := by unfold loadRejected; simp [hld, hs]
        rw [this]
        exact ⟨hc, ht, fun _ _ h => h⟩
      · have hlt : i < s.loads.length := (List.getElem?_eq_some.mp hld).1
        have hres : s.loadRejected i =
            { s with
              loads := s.loads.set i
                { ld with tile := Tile.disposeModel { ld.tile with isLoading := false },
                          settled := true }
              currentlyLoading := s.currentlyLoading - 1 } := by
          unfold loadRejected
          simp [hld, hs]
        rw [hres]
        refine ⟨hc, ht, ?_⟩
        intro ref m h
        by_cases hr : i = ref
        · subst hr
          simp [modelAt, tileAt, List.getElem?_set, hlt, Tile.disposeModel] at h
        · simpa [modelAt, tileAt, List.getElem?_set, hr] using h

theorem run_closed_empty (events : List Event) (s : TileManager) (hc : s.closed = true)
    (ht : s.tiles = []) :
    (run s events).closed = true ∧ (run s events).tiles = [] ∧
    ∀ ref m, (run s events).modelAt ref = some m → s.modelAt ref = some m := by
  induction events generalizing s with
  | nil => exact ⟨hc, ht, fun _ _ h => h⟩
  | cons e es ih =>
    obtain ⟨h1, h2, h3⟩ := step_closed_empty s e hc ht
    obtain ⟨h4, h5, h6⟩ := ih (step s e) h1 h2
    exact ⟨h4, h5, fun ref m h => h3 ref m (h6 ref m h)⟩

/-- Claim C8.  After `close()` the cache mapping is empty and `disposeModel` was called on
every entry that was in it; after any further sequence of events (calls of `setPosition`,
`update`, `loadCloseTiles`, `tryLoadTile`, `close`, and loads that resolve or fail) the manager
is still closed, the cache is still empty, and every tile that has a model had it at the time
of closing: no entry is stored and no model is installed. -/
theorem close_empties_cache_for_good (s : TileManager) (events : List Event) :
    s.close.tiles = [] ∧
    (∀ key ref t, s.tiles.get key = some ref → s.tileAt ref = some t →
      s.close.tileAt ref = some t.disposeModel) ∧
    (run s.close events).closed = true ∧
    (run s.close events).tiles = [] ∧
    (∀ ref m, (run s.close events).modelAt ref = some m → s.close.modelAt ref = some m) := by
  obtain ⟨h1, h2, h3⟩ := run_closed_empty events s.close (close_closed s) (close_tiles s)
  exact ⟨close_tiles s, fun key ref t hg ht => close_tileAt s key ref t hg ht, h1, h2, h3⟩

end TileManager

/-! ## Loads that fail -/

namespace TileManager

/-- Claim C10 fails as stated: after `update` dispatched the load of (0,0) and the load
failed, the manager is not closed and (0,0) lies inside the window, but the entry is still
stored under its key and `tryLoadTile(0, 0)` returns false. -/
theorem failed_entry_stays_cached :
    (run singleTileExample [.update, .reject 0]).closed = false ∧
    (run singleTileExample [.update, .reject 0]).tile = ⟨0, 0⟩ ∧
    (run singleTileExample [.update, .reject 0]).viewDistanceX = 1 / 2 ∧
    (run singleTileExample [.update, .reject 0]).viewDistanceZ = 1 / 2 ∧
    (run singleTileExample [.update, .reject 0]).tiles.get (hashTile 0 0) = some 0 ∧
    (run singleTileExample [.update, .reject 0]).tileAt 0 =
      some { x := 0, z := 0, isLoading := false, disposed := true, model := none } ∧
    ((run singleTileExample [.update, .reject 0]).tryLoadTile 0 0).1 = false := by
  with_unfolding_all decide

/-- Claim C10, amended.  When the pending load `i` fails, its entry is marked not loading and
disposed, but the cache mapping is not changed: if the entry is stored under the key of
`(x, z)` it stays there, and `tryLoadTile(x, z)` afterwards returns false and changes
nothing. -/
theorem loadRejected_keeps_entry (s : TileManager) (i : Nat) (ld : Load) (x z : Int)
    (hld : s.loads[i]? = some ld) (hpending : ld.settled = false)
    (hcached : s.tiles.get (hashTile x z) = some i) :
    (s.loadRejected i).tiles = s.tiles ∧
    (s.loadRejected i).tiles.get (hashTile x z) = some i ∧
    (s.loadRejected i).tileAt i =
      some { ld.tile with isLoading := false, disposed := true, model := none } ∧
    (s.loadRejected i).tryLoadTile x z = (false, s.loadRejected i) := by
  have hlt : i < s.loads.length := (List.getElem?_eq_some.mp hld).1
  have hres : s.loadRejected i =
      { s with
        loads := s.loads.set i
          { ld with tile := Tile.disposeModel { ld.tile with isLoading := false },
                    settled := true }
        currentlyLoading := s.currentlyLoading - 1 } := by
    unfold loadRejected
    simp [hld, hpending]
  rw [hres]
  refine ⟨rfl, hcached, ?_, ?_⟩
  · simp [tileAt, List.getElem?_set, hlt, Tile.disposeModel]
  · unfold tryLoadTile
    simp only [hcached]
    split
    · rfl
    · split
      · rfl
      · split <;> rfl

theorem loadRejected_keeps_entry_witness :
    (run singleTileExample [.update, .reject 0]).tiles = [((0, 0), 0)] ∧
    (run singleTileExample [.update, .reject 0]).tileAt 0 =
      some { x := 0, z := 0, isLoading := false, disposed := true, model := none } ∧
    (run singleTileExample [.update, .reject 0]).tryLoadTile 0 0 =
      (false, run singleTileExample [.update, .reject 0]) := by
  have h := loadRejected_keeps_entry (run singleTileExample [.update]) 0
    { tile := { x := 0, z := 0, isLoading := true, disposed := false, model := none },
      tileHash := (0, 0), settled := false } 0 0
    (by with_unfolding_all decide) rfl (by with_unfolding_all decide)
  have ht : (run singleTileExample [.update]).tiles = [((0, 0), 0)] := by
    with_unfolding_all decide
  rw [ht] at h
  exact ⟨h.1, h.2.2.1, h.2.2.2⟩

end TileManager

/-! ## Results that arrive for a superseded entry -/

namespace TileManager

/-- Claim C11.  In the run of claim C5 the entry of load 2 for (0,0) is pending and not
disposed while the key of (0,0) holds the later entry of load 3.  When load 2 resolves, the
handler does not discard the result: it overwrites the mapping under the key with the old
entry and attaches the model to it.  When load 3 resolves it takes the key back, and after
`close()` the tile of load 2 still owns its model and is not disposed. -/
theorem stale_result_installed :
    (run singleTileExample
      [.update, .setPosition ⟨10, 0⟩, .setPosition ⟨0, 0⟩, .resolve 0 7,
        .loadCloseTiles]).tiles = [((0, 0), 3)] ∧
    (run singleTileExample
      [.update, .setPosition ⟨10, 0⟩, .setPosition ⟨0, 0⟩, .resolve 0 7,
        .loadCloseTiles]).closed = false ∧
    (run singleTileExample
      [.update, .setPosition ⟨10, 0⟩, .setPosition ⟨0, 0⟩, .resolve 0 7,
        .loadCloseTiles]).loads[2]? =
      some { tile := { x := 0, z := 0, isLoading := true, disposed := false, model := none },
             tileHash := (0, 0), settled := false } ∧
    (run singleTileExample
      [.update, .setPosition ⟨10, 0⟩, .setPosition ⟨0, 0⟩, .resolve 0 7,
        .loadCloseTiles, .resolve 2 8]).tiles = [((0, 0), 2)] ∧
    (run singleTileExample
      [.update, .setPosition ⟨10, 0⟩, .setPosition ⟨0, 0⟩, .resolve 0 7,
        .loadCloseTiles, .resolve 2 8]).tileAt 2 =
      some { x := 0, z := 0, isLoading := false, disposed := false, model := some 8 } ∧
    (run singleTileExample
      [.update, .setPosition ⟨10, 0⟩, .setPosition ⟨0, 0⟩, .resolve 0 7,
        .loadCloseTiles, .resolve 2 8, .resolve 3 9, .close]).tiles = [] ∧
    (run singleTileExample
      [.update, .setPosition ⟨10, 0⟩, .setPosition ⟨0, 0⟩, .resolve 0 7,
        .loadCloseTiles, .resolve 2 8, .resolve 3 9, .close]).tileAt 2 =
      some { x := 0, z := 0, isLoading := false, disposed := false, model := some 8 } := by
  with_unfolding_all decide

end TileManager

/-! ## The position of the viewer -/

namespace TileManager

theorem removeFarTiles_tile (s : TileManager) : s.removeFarTiles.tile = s.tile := by
  have h : ∀ (ks : List TileHash) (s1 : TileManager),
      (ks.foldl removeFarTilesIter s1).tile = s1.tile := by
    intro ks
    induction ks with
    | nil => intro s1; rfl
    | cons k ks ih =>
      intro s1
      rw [List.foldl_cons, ih, removeFarTilesIter_eq]
      split <;> rfl
  exact h _ s

theorem loadCloseTiles_tile (s : TileManager) : s.loadCloseTiles.tile = s.tile := by
  unfold loadCloseTiles
  split
  · rfl
  · split
    · rcases loadNextTile_cases s with hn | ⟨s1, hn, x, z, hs1, _⟩
      · rw [hn]
      · rw [hn, hs1]; rfl
    · rfl

theorem update_tile (s : TileManager) : s.update.tile = s.tile := by
  unfold update
  split
  · rfl
  · rw [loadCloseTiles_tile, removeFarTiles_tile]

/-- Claim C12.  For a positive tile size, `setPosition(p)` sets the center tile to
`(floor((p.x - o.x) / s.x), floor((p.z - o.z) / s.z))`, the tile whose cell holds the position
measured from the offset.  If that tile differs from `lastTile`
and the manager is not closed, the call runs `update()` on the state with the new center and
then sets `lastTile` to the new center; otherwise only the center tile is written, and the
cache, the tile objects, the in-flight counter and `lastTile` are unchanged. -/
theorem setPosition_spec (s : TileManager) (p : Position)
    (hx : 0 < s.tileSize.x) (hz : 0 < s.tileSize.y) :
    (s.setPosition p).tile =
      ⟨⌊(p.x - s.tileOffset.x) / s.tileSize.x⌋, ⌊(p.z - s.tileOffset.y) / s.tileSize.y⌋⟩ ∧
    (((s.setPosition p).tile.x : ℚ) * s.tileSize.x ≤ p.x - s.tileOffset.x ∧
      p.x - s.tileOffset.x < (((s.setPosition p).tile.x : ℚ) + 1) * s.tileSize.x ∧
      ((s.setPosition p).tile.y : ℚ) * s.tileSize.y ≤ p.z - s.tileOffset.y ∧
      p.z - s.tileOffset.y < (((s.setPosition p).tile.y : ℚ) + 1) * s.tileSize.y) ∧
    (((⟨⌊(p.x - s.tileOffset.x) / s.tileSize.x⌋, ⌊(p.z - s.tileOffset.y) / s.tileSize.y⌋⟩ :
          Vector2 Int) ≠ s.lastTile ∧ s.closed = false) →
      s.setPosition p =
        { update { s with tile :=
            ⟨⌊(p.x - s.tileOffset.x) / s.tileSize.x⌋, ⌊(p.z - s.tileOffset.y) / s.tileSize.y⌋⟩ }
          with lastTile :=
            ⟨⌊(p.x - s.tileOffset.x) / s.tileSize.x⌋,
              ⌊(p.z - s.tileOffset.y) / s.tileSize.y⌋⟩ }) ∧
    (¬ ((⟨⌊(p.x - s.tileOffset.x) / s.tileSize.x⌋, ⌊(p.z - s.tileOffset.y) / s.tileSize.y⌋⟩ :
          Vector2 Int) ≠ s.lastTile ∧ s.closed = false) →
      (s.setPosition p).tiles = s.tiles ∧ (s.setPosition p).loads = s.loads ∧
      (s.setPosition p).currentlyLoading = s.currentlyLoading ∧
      (s.setPosition p).lastTile = s.lastTile) := by
  have htile : (s.setPosition p).tile =
      ⟨⌊(p.x - s.tileOffset.x) / s.tileSize.x⌋, ⌊(p.z - s.tileOffset.y) / s.tileSize.y⌋⟩ := by
    unfold setPosition
    simp only
    split
    · exact update_tile _
    · rfl
  refine ⟨htile, ?_, ?_, ?_⟩
  · rw [htile]
    refine ⟨?_, ?_, ?_, ?_⟩
    · exact (le_div_iff₀ hx).mp (Int.floor_le _)
    · exact (div_lt_iff₀ hx).mp (Int.lt_floor_add_one _)
    · exact (le_div_iff₀ hz).mp (Int.floor_le _)
    · exact (div_lt_iff₀ hz).mp (Int.lt_floor_add_one _)
  · intro h
    unfold setPosition
    simp only
    rw [if_pos h]
  · intro h
    unfold setPosition
    simp only
    rw [if_neg h]
    exact ⟨rfl, rfl, rfl, rfl⟩

theorem setPosition_spec_witness :
    (singleTileExample.setPosition ⟨11, -3⟩).tile = ⟨5, -2⟩ :=
  (setPosition_spec singleTileExample ⟨11, -3⟩ (by with_unfolding_all decide)
    (by with_unfolding_all decide)).1.trans (by with_unfolding_all decide)

end TileManager

/-! ## Updating a window that is already populated -/

namespace TileManager

/-- Claim C13.  With both radii 3/4 the window is the single tile (0,0).  After `update()`
dispatched its load and the load resolved, the manager is not closed, every coordinate inside
the window has an entry and no entry lies outside the window.  A further `update()` evicts
nothing but dispatches a load for (0,1), which lies outside the window on the z axis, and
stores its entry: the spiral reaches (0,1) in ring 2 and the guard on z in `tryLoadTile` never
rejects. -/
theorem update_dispatches_on_full_window :
    (run narrowExample [.update, .resolve 0 7]).closed = false ∧
    (run narrowExample [.update, .resolve 0 7]).tiles = [((0, 0), 0)] ∧
    (∀ x z, (run narrowExample [.update, .resolve 0 7]).inWindow x z →
      (run narrowExample [.update, .resolve 0 7]).tiles.get (hashTile x z) ≠ none) ∧
    (run narrowExample [.update, .resolve 0 7]).inWindow 0 0 ∧
    ¬ (run narrowExample [.update, .resolve 0 7]).inWindow 0 1 ∧
    (run narrowExample [.update, .resolve 0 7]).update.tiles = [((0, 0), 0), ((0, 1), 1)] ∧
    (run narrowExample [.update, .resolve 0 7]).update.dispatched = [(0, 0), (0, 1)] := by
  have hx : (run narrowExample [.update, .resolve 0 7]).viewDistanceX = 3 / 4 := by
    with_unfolding_all decide
  have hz : (run narrowExample [.update, .resolve 0 7]).viewDistanceZ = 3 / 4 := by
    with_unfolding_all decide
  have ht : (run narrowExample [.update, .resolve 0 7]).tile = ⟨0, 0⟩ := by
    with_unfolding_all decide
  have hts : (run narrowExample [.update, .resolve 0 7]).tiles = [((0, 0), 0)] := by
    with_unfolding_all decide
  refine ⟨by with_unfolding_all decide, hts, ?_, ?_, ?_, by with_unfolding_all decide,
    by with_unfolding_all decide⟩
  · intro x z hw
    unfold inWindow at hw
    rw [hx, hz, ht] at hw
    obtain ⟨h1, h2⟩ := hw
    simp only [sub_zero] at h1 h2
    rw [abs_le] at h1 h2
    have hx0 : x = 0 := by
      have a1 : (x : ℚ) < 1 := by linarith [h1.2]
      have a2 : (-1 : ℚ) < (x : ℚ) := by linarith [h1.1]
      have b1 : x < 1 := by exact_mod_cast a1
      have b2 : -1 < x := by exact_mod_cast a2
      omega
    have hz0 : z = 0 := by
      have a1 : (z : ℚ) < 1 := by linarith [h2.2]
      have a2 : (-1 : ℚ) < (z : ℚ) := by linarith [h2.1]
      have b1 : z < 1 := by exact_mod_cast a1
      have b2 : -1 < z := by exact_mod_cast a2
      omega
    rw [hx0, hz0, hts]
    decide
  · unfold inWindow
    rw [hx, hz, ht]
    norm_num
  · unfold inWindow
    rw [hx, hz, ht]
    norm_num

/-! ## The constructor and `setPosition` -/

/-- Claim C20.  With the tile offset (5, 0) and tiles of size 1, the constructor computes the
center tile (0, 0) for the position (0, 0), because it does not subtract the offset, while
`setPosition` computes (-5, 0) for the same position: the call finds the center changed,
runs `update()`, which dispatches a load, and moves `lastTile`. -/
theorem constructor_ignores_offset :
    offsetExample.tile = ⟨0, 0⟩ ∧ offsetExample.lastTile = ⟨0, 0⟩ ∧
    (offsetExample.setPosition ⟨0, 0⟩).tile = ⟨-5, 0⟩ ∧
    (offsetExample.setPosition ⟨0, 0⟩).lastTile = ⟨-5, 0⟩ ∧
    offsetExample.dispatched = [] ∧
    (offsetExample.setPosition ⟨0, 0⟩).dispatched = [(-5, 0)] ∧
    offsetExample.setPosition ⟨0, 0⟩ =
      { update { offsetExample with tile := ⟨-5, 0⟩ } with lastTile := ⟨-5, 0⟩ } := by
  with_unfolding_all decide

end TileManager

/-! ## Installing a result, dispatching a load -/

theorem Math.abs_eq_abs (v : ℚ) : Math.abs v = |v| := by
  unfold Math.abs
  split
  · rename_i hneg; rw [abs_of_neg hneg]
  · rename_i hneg; rw [abs_of_nonneg (not_lt.mp hneg)]

theorem TileMap.set_of_get_none (ts : TileMap) (key : TileHash) (ref : Nat)
    (h : ts.get key = none) : ts.set key ref = ts ++ [(key, ref)] := by
  unfold TileMap.set
  rw [h]

namespace TileManager

/-- Claim C15.  When the pending load `i`, dispatched for `(x, z)`, resolves with `model`
while the manager is not closed and the entry is not marked disposed, the success handler
binds the key of `(x, z)` to that entry, attaches the model to it, sets `updateFrame`, and
sets the in-flight counter to `max(counter - 1, 0)`; the bindings of all other keys and all
other tile objects are unchanged. -/
theorem loadResolved_installs (s : TileManager) (i : Nat) (ld : Load) (model : Model)
    (x z : Int) (hld : s.loads[i]? = some ld) (hpending : ld.settled = false)
    (hkey : ld.tileHash = hashTile x z) (hlive : ld.tile.disposed = false)
    (hopen : s.closed = false) :
    (s.loadResolved i model).tiles.get (hashTile x z) = some i ∧
    (s.loadResolved i model).tileAt i =
      some { ld.tile with isLoading := false, model := some model } ∧
    (s.loadResolved i model).updateFrame = true ∧
    (s.loadResolved i model).currentlyLoading = max (s.currentlyLoading - 1) 0 ∧
    (∀ key, key ≠ hashTile x z → (s.loadResolved i model).tiles.get key = s.tiles.get key) ∧
    (∀ ref, ref ≠ i → (s.loadResolved i model).tileAt ref = s.tileAt ref) ∧
    (s.loadResolved i model).disposedGeometry = s.disposedGeometry := by
  have hlt : i < s.loads.length := (List.getElem?_eq_some.mp hld).1
  have hres : s.loadResolved i model =
      { s with
        tiles := s.tiles.set ld.tileHash i
        loads := s.loads.set i
          { ld with tile := Tile.setModel { ld.tile with isLoading := false } model,
                    settled := true }
        updateFrame := true
        currentlyLoading :=
          if s.currentlyLoading - 1 < 0 then 0 else s.currentlyLoading - 1 } := by
    unfold loadResolved
    simp [hld, hpending, hlive, hopen]
  rw [hres]
  refine ⟨?_, ?_, rfl, ?_, ?_, ?_, rfl⟩
  · simp [TileMap.get_set, hkey]
  · simp [tileAt, List.getElem?_set, hlt, Tile.setModel]
  · show (if s.currentlyLoading - 1 < 0 then 0 else s.currentlyLoading - 1) =
      max (s.currentlyLoading - 1) 0
    split <;> omega
  · intro key hk
    have hk2 : ¬ hashTile x z = key := fun h => hk h.symm
    simp [TileMap.get_set, hkey, hk2]
  · intro ref hne
    have hne2 : ¬ i = ref := fun h => hne h.symm
    simp [tileAt, List.getElem?_set, hne2]

theorem loadResolved_installs_witness :
    (run singleTileExample [.update, .resolve 0 7]).tiles.get (hashTile 0 0) = some 0 ∧
    (run singleTileExample [.update, .resolve 0 7]).tileAt 0 =
      some { x := 0, z := 0, isLoading := false, disposed := false, model := some 7 } ∧
    (run singleTileExample [.update, .resolve 0 7]).updateFrame = true ∧
    (run singleTileExample [.update, .resolve 0 7]).currentlyLoading = 0 := by
  have h := loadResolved_installs (run singleTileExample [.update]) 0
    { tile := { x := 0, z := 0, isLoading := true, disposed := false, model := none },
      tileHash := (0, 0), settled := false } 7 0 0
    (by with_unfolding_all decide) rfl rfl rfl (by with_unfolding_all decide)
  have hc : (run singleTileExample [.update]).currentlyLoading = 1 := by
    with_unfolding_all decide
  rw [hc] at h
  exact ⟨h.1, h.2.1, h.2.2.1, h.2.2.2.1⟩

/-- Claim C16.  In a state that is not closed, for a coordinate `(x, z)` inside both radii
that has no cache entry, `tryLoadTile(x, z)` returns true; the cache afterwards is the old
cache followed by one binding of the key of `(x, z)` to a new tile object with the coordinate
`(x, z)`, loading, not disposed and without a model; the in-flight counter is one higher; the
loader was called once more, with `(x, z)`; the bindings of all other keys, the tile objects
that existed and the center tile are unchanged. -/
theorem tryLoadTile_dispatch_frame (s : TileManager) (x z : Int) (hopen : s.closed = false)
    (hwin : s.inWindow x z) (hfree : s.tiles.get (hashTile x z) = none) :
    (s.tryLoadTile x z).1 = true ∧
    (s.tryLoadTile x z).2.tiles = s.tiles ++ [(hashTile x z, s.loads.length)] ∧
    (s.tryLoadTile x z).2.tileAt s.loads.length =
      some { x := x, z := z, isLoading := true, disposed := false, model := none } ∧
    (s.tryLoadTile x z).2.currentlyLoading = s.currentlyLoading + 1 ∧
    (s.tryLoadTile x z).2.dispatched = s.dispatched ++ [(x, z)] ∧
    (s.tryLoadTile x z).2.pendingCount = s.pendingCount + 1 ∧
    (∀ key, key ≠ hashTile x z → (s.tryLoadTile x z).2.tiles.get key = s.tiles.get key) ∧
    (∀ ref t, s.tileAt ref = some t → (s.tryLoadTile x z).2.tileAt ref = some t) ∧
    (s.tryLoadTile x z).2.tile = s.tile ∧ (s.tryLoadTile x z).2.lastTile = s.lastTile := by
  have hacc : s.accepts x z := by
    refine ⟨hopen, ?_, hfree⟩
    rw [Math.abs_eq_abs]
    exact not_lt.mpr hwin.1
  have htry : s.tryLoadTile x z = (true, s.withLoad x z) := by
    rcases tryLoadTile_cases s x z with h | ⟨h, _⟩
    · exfalso
      unfold tryLoadTile at h
      rw [if_neg (by simp [hopen]), if_neg hacc.2.1] at h
      have hzg : absDiffGt z s.tile.z s.viewDistanceZ = false := rfl
      rw [hzg] at h
      simp only [Bool.false_eq_true, if_false, hfree] at h
      exact absurd (congrArg Prod.fst h) (by simp)
    · exact h
  rw [htry]
  refine ⟨rfl, ?_, ?_, rfl, ?_, ?_, ?_, ?_, rfl, rfl⟩
  · show s.tiles.set (hashTile x z) s.loads.length = _
    exact TileMap.set_of_get_none _ _ _ hfree
  · simp [withLoad, tileAt, Tile.create]
  · simp [withLoad, dispatched, Tile.create]
  · exact withLoad_pendingCount s x z
  · intro key hk
    have hk2 : ¬ hashTile x z = key := fun h => hk h.symm
    show (s.tiles.set (hashTile x z) s.loads.length).get key = _
    rw [TileMap.get_set, if_neg hk2]
  · intro ref t ht
    have hlt : ref < s.loads.length := by
      unfold tileAt at ht
      cases hr : s.loads[ref]? with
      | none => rw [hr] at ht; simp at ht
      | some ld => exact (List.getElem?_eq_some.mp hr).1
    unfold tileAt at ht ⊢
    show ((s.loads ++ _)[ref]?).map Load.tile = some t
    rw [List.getElem?_append_left hlt]
    exact ht

theorem tryLoadTile_dispatch_frame_witness :
    (singleTileExample.tryLoadTile 0 0).1 = true ∧
    (singleTileExample.tryLoadTile 0 0).2.tiles = [((0, 0), 0)] ∧
    (singleTileExample.tryLoadTile 0 0).2.currentlyLoading = 1 ∧
    (singleTileExample.tryLoadTile 0 0).2.dispatched = [(0, 0)] := by
  have h := tryLoadTile_dispatch_frame singleTileExample 0 0 rfl
    (by
      have hx : singleTileExample.viewDistanceX = 1 / 2 := by with_unfolding_all decide
      have hz : singleTileExample.viewDistanceZ = 1 / 2 := by with_unfolding_all decide
      have ht : singleTileExample.tile = ⟨0, 0⟩ := by with_unfolding_all decide
      unfold inWindow
      rw [hx, hz, ht]
      norm_num)
    rfl
  exact ⟨h.1, h.2.1, h.2.2.2.1, h.2.2.2.2.1⟩

/-- Claim C17.  One call of `loadNextTile` dispatches at most one load.  It returns true if
and only if the cache afterwards is the old cache followed by one new binding, and then the
in-flight counter is one higher and the loader was called exactly once more; when it returns
false the state, and with it the cache and the counter, is unchanged. -/
theorem loadNextTile_at_most_one (s : TileManager) :
    (s.loadNextTile.1 = true ↔
      ∃ key, s.loadNextTile.2.tiles = s.tiles ++ [(key, s.loads.length)]) ∧
    (s.loadNextTile.1 = true →
      s.loadNextTile.2.currentlyLoading = s.currentlyLoading + 1 ∧
      ∃ x z, s.loadNextTile.2.dispatched = s.dispatched ++ [(x, z)]) ∧
    (s.loadNextTile.1 = false → s.loadNextTile.2 = s) := by
  rcases loadNextTile_cases s with hn | ⟨s1, hn, x, z, hs1, hacc⟩
  · rw [hn]
    refine ⟨?_, ?_, fun _ => rfl⟩
    · constructor
      · intro h; simp at h
      · rintro ⟨key, hk⟩
        have := congrArg List.length hk
        simp at this
    · intro h; simp at h
  · rw [hn, hs1]
    refine ⟨?_, ?_, ?_⟩
    · constructor
      · intro _
        exact ⟨hashTile x z, TileMap.set_of_get_none _ _ _ hacc.2.2⟩
      · intro _; rfl
    · intro _
      exact ⟨rfl, x, z, by simp [withLoad, dispatched, Tile.create]⟩
    · intro h; simp at h

/-- Claim C18.  In every state reached from construction by calls of `setPosition` and
`update`, pump iterations and loads that resolve or fail, the in-flight counter
`currentlyLoading` is at most 8. -/
theorem counter_le_eight (viewDistance : ℚ) (tileSize tileOffset position : Position)
    (events : List Event) (hd : ∀ e, e ∈ events → e.isDriver = true) :
    (run (construct viewDistance tileSize tileOffset position) events).currentlyLoading
      ≤ 8 :=
  (run_bound events _ 0 hd (construct_bound viewDistance tileSize tileOffset position)).2

theorem counter_le_eight_witness :
    (run wideExample
        [.update, .loadCloseTiles, .loadCloseTiles, .loadCloseTiles, .loadCloseTiles,
          .loadCloseTiles, .loadCloseTiles, .loadCloseTiles, .loadCloseTiles,
          .loadCloseTiles]).currentlyLoading ≤ 8 :=
  counter_le_eight 5 ⟨2, 2⟩ ⟨0, 0⟩ ⟨0, 0⟩
    [.update, .loadCloseTiles, .loadCloseTiles, .loadCloseTiles, .loadCloseTiles,
      .loadCloseTiles, .loadCloseTiles, .loadCloseTiles, .loadCloseTiles, .loadCloseTiles]
    (by decide)

end TileManager

/-! ## The record of a search -/

namespace TileManager

theorem xLoopTrace_erase (fuel : Nat) (s : TileManager) (x z d m : Int) :
    (xLoopTrace fuel s x z d m).map (fun r => (r.1, r.2.1, r.2.2.1)) = xLoop fuel s x z d m := by
  induction fuel generalizing x with
  | zero => rfl
  | succ n ih =>
    unfold xLoopTrace xLoop
    split
    · rcases tryLoadTile_cases s (s.tile.x + x) (s.tile.y + z) with hc | ⟨hc, _⟩
      · rw [hc]
        simp only
        rw [← ih]
        cases xLoopTrace n s (x + d) z d m with
        | none => rfl
        | some r => rfl
      · rw [hc]; rfl
    · rfl

theorem zLoopTrace_erase (fuel : Nat) (s : TileManager) (x z d m : Int) :
    (zLoopTrace fuel s x z d m).map (fun r => (r.1, r.2.1, r.2.2.1)) = zLoop fuel s x z d m := by
  induction fuel generalizing z with
  | zero => rfl
  | succ n ih =>
    unfold zLoopTrace zLoop
    split
    · rcases tryLoadTile_cases s (s.tile.x + x) (s.tile.y + z) with hc | ⟨hc, _⟩
      · rw [hc]
        simp only
        rw [← ih]
        cases zLoopTrace n s x (z + d) d m with
        | none => rfl
        | some r => rfl
      · rw [hc]; rfl
    · rfl

theorem ringLoopTrace_erase (fuel n : Nat) (s : TileManager) (x z d m : Int) :
    (ringLoopTrace fuel n s x z d m).map (fun r => (r.1, r.2.1)) =
      ringLoop fuel n s x z d m := by
  induction n generalizing s x z d m with
  | zero => rfl
  | succ n ih =>
    unfold ringLoopTrace ringLoop
    split
    · rw [← xLoopTrace_erase]
      cases hx : xLoopTrace fuel s x z d m with
      | none => rfl
      | some rx =>
        obtain ⟨bx, sx, x1, cx⟩ := rx
        cases bx with
        | true => rfl
        | false =>
          simp only [Option.map_some']
          rw [← zLoopTrace_erase]
          cases hz : zLoopTrace fuel sx x1 z d m with
          | none => rfl
          | some rz =>
            obtain ⟨bz, sz, z1, cz⟩ := rz
            cases bz with
            | true => rfl
            | false =>
              simp only [Option.map_some']
              rw [← ih]
              cases ringLoopTrace fuel n sz x1 z1 (-1 * d) (m + 1) with
              | none => rfl
              | some r => rfl
    · rfl

/-- The record of a search belongs to the search: without the record, `loadNextTileTrace` is
`loadNextTile`, and the iteration bound is not reached. -/
theorem loadNextTileTrace_erase (s : TileManager) :
    ringLoopTrace s.spiralFuel s.spiralFuel s 0 0 1 1 = some s.loadNextTileTrace ∧
    (s.loadNextTileTrace.1, s.loadNextTileTrace.2.1) = s.loadNextTile := by
  have h1 := ringLoopTrace_erase s.spiralFuel s.spiralFuel s 0 0 1 1
  have h2 := loadNextTileFuel_spiralFuel s
  unfold loadNextTileFuel at h2
  rw [h2] at h1
  unfold loadNextTileTrace
  cases hr : ringLoopTrace s.spiralFuel s.spiralFuel s 0 0 1 1 with
  | none => rw [hr] at h1; simp at h1
  | some r =>
    rw [hr] at h1
    simp only [Option.map_some', Option.some.injEq] at h1
    exact ⟨rfl, h1⟩


theorem tryLoadTile_accepts (s : TileManager) (x z : Int) (h : s.accepts x z) :
    s.tryLoadTile x z = (true, s.withLoad x z) := by
  unfold tryLoadTile
  rw [if_neg (by simp [h.1]), if_neg h.2.1]
  have hzg : absDiffGt z s.tile.z s.viewDistanceZ = false := rfl
  rw [hzg]
  simp only [Bool.false_eq_true, if_false, h.2.2]
  rfl

theorem not_accepts_of_false (s : TileManager) (x z : Int)
    (h : s.tryLoadTile x z = (false, s)) : ¬ s.accepts x z := by
  intro ha
  rw [tryLoadTile_accepts s x z ha] at h
  exact absurd (congrArg Prod.fst h) (by simp)

theorem mul_eq_of_unit (a b d : Int) (hd : d = 1 ∨ d = -1) (h : a * d = b * d) : a = b := by
  rcases hd with hd | hd <;> subst hd <;> omega

theorem step_mul_unit (x d : Int) (hd : d = 1 ∨ d = -1) : (x + d) * d = x * d + 1 := by
  rcases hd with hd | hd <;> subst hd <;> ring

/-- What the first inner loop does, read off its record. -/
theorem xLoopTrace_spec (fuel : Nat) (s : TileManager) (x z d m : Int) (b : Bool)
    (s1 : TileManager) (x1 : Int) (calls : List (Int × Int)) (hd : d = 1 ∨ d = -1)
    (h : xLoopTrace fuel s x z d m = some (b, s1, x1, calls)) :
    (∀ c, c ∈ calls → c.2 = z ∧ x * d ≤ c.1 * d ∧ 2 * (c.1 * d) < m) ∧
    calls.length ≤ ((m - 2 * (x * d) + 1) / 2).toNat ∧
    (b = false → s1 = s ∧ m ≤ 2 * (x1 * d) ∧ (x1 = x ∨ 2 * (x1 * d) < m + 2) ∧
      ∀ a, x * d ≤ a * d → 2 * (a * d) < m → ¬ s.accepts (s.tile.x + a) (s.tile.y + z)) ∧
    (b = true → s1 = s.withLoad (s.tile.x + x1) (s.tile.y + z) ∧
      s.accepts (s.tile.x + x1) (s.tile.y + z) ∧ 2 * (x1 * d) < m ∧ x * d ≤ x1 * d ∧
      ∃ earlier, calls = earlier ++ [(x1, z)]) := by
  induction fuel generalizing x calls with
  | zero => simp [xLoopTrace] at h
  | succ n ih =>
    unfold xLoopTrace at h
    split at h
    · rename_i hlt
      rw [mul_assoc] at hlt
      rcases tryLoadTile_cases s (s.tile.x + x) (s.tile.y + z) with hc | ⟨hc, ha⟩
      · rw [hc] at h
        simp only at h
        cases hr : xLoopTrace n s (x + d) z d m with
        | none => rw [hr] at h; simp at h
        | some r =>
          obtain ⟨b2, s2, x2, calls2⟩ := r
          rw [hr] at h
          simp only [Option.some.injEq, Prod.mk.injEq] at h
          obtain ⟨hb, hs, hx, hcalls⟩ := h
          subst hb; subst hs; subst hx; subst hcalls
          obtain ⟨i1, i2, i3, i4⟩ := ih (x + d) calls2 hr
          have hk := step_mul_unit x d hd
          rw [hk] at i1 i2 i3 i4
          refine ⟨?_, ?_, ?_, ?_⟩
          · intro c hc2
            rcases List.mem_cons.mp hc2 with hc2 | hc2
            · subst hc2
              exact ⟨rfl, le_refl _, hlt⟩
            · obtain ⟨j1, j2, j3⟩ := i1 c hc2
              exact ⟨j1, by omega, j3⟩
          · simp only [List.length_cons]
            omega
          · intro hb
            obtain ⟨j1, j2, j3, j4⟩ := i3 hb
            refine ⟨j1, j2, Or.inr ?_, ?_⟩
            · rcases j3 with j3 | j3
              · rw [j3, hk]; omega
              · exact j3
            · intro a ha1 ha2
              by_cases hax : a * d = x * d
              · have := mul_eq_of_unit a x d hd hax
                subst this
                exact not_accepts_of_false s _ _ hc
              · exact j4 a (by omega) ha2
          · intro hb
            obtain ⟨j1, j2, j3, j4, earlier, j5⟩ := i4 hb
            exact ⟨j1, j2, j3, by omega, (x, z) :: earlier, by rw [j5]; rfl⟩
      · rw [hc] at h
        simp only [Option.some.injEq, Prod.mk.injEq] at h
        obtain ⟨hb, hs, hx, hcalls⟩ := h
        subst hb; subst hs; subst hx; subst hcalls
        refine ⟨?_, ?_, ?_, ?_⟩
        · intro c hc2
          simp only [List.mem_singleton] at hc2
          subst hc2
          exact ⟨rfl, le_refl _, hlt⟩
        · simp only [List.length_singleton]
          omega
        · intro hb; simp at hb
        · intro _
          exact ⟨rfl, ha, hlt, le_refl _, [], rfl⟩
    · rename_i hlt
      rw [mul_assoc] at hlt
      simp only [Option.some.injEq, Prod.mk.injEq] at h
      obtain ⟨hb, hs, hx, hcalls⟩ := h
      subst hb; subst hs; subst hx; subst hcalls
      refine ⟨?_, ?_, ?_, ?_⟩
      · intro c hc2; simp at hc2
      · simp
      · intro _
        exact ⟨rfl, by omega, Or.inl rfl, fun a ha1 ha2 => by omega⟩
      · intro hb; simp at hb

/-- What the second inner loop does, read off its record. -/
theorem zLoopTrace_spec (fuel : Nat) (s : TileManager) (x z d m : Int) (b : Bool)
    (s1 : TileManager) (z1 : Int) (calls : List (Int × Int)) (hd : d = 1 ∨ d = -1)
    (h : zLoopTrace fuel s x z d m = some (b, s1, z1, calls)) :
    (∀ c, c ∈ calls → c.1 = x ∧ z * d ≤ c.2 * d ∧ 2 * (c.2 * d) < m) ∧
    calls.length ≤ ((m - 2 * (z * d) + 1) / 2).toNat ∧
    (b = false → s1 = s ∧ m ≤ 2 * (z1 * d) ∧ (z1 = z ∨ 2 * (z1 * d) < m + 2) ∧
      ∀ a, z * d ≤ a * d → 2 * (a * d) < m → ¬ s.accepts (s.tile.x + x) (s.tile.y + a)) ∧
    (b = true → s1 = s.withLoad (s.tile.x + x) (s.tile.y + z1) ∧
      s.accepts (s.tile.x + x) (s.tile.y + z1) ∧ 2 * (z1 * d) < m ∧ z * d ≤ z1 * d ∧
      ∃ earlier, calls = earlier ++ [(x, z1)]) := by
  induction fuel generalizing z calls with
  | zero => simp [zLoopTrace] at h
  | succ n ih =>
    unfold zLoopTrace at h
    split at h
    · rename_i hlt
      rw [mul_assoc] at hlt
      rcases tryLoadTile_cases s (s.tile.x + x) (s.tile.y + z) with hc | ⟨hc, ha⟩
      · rw [hc] at h
        simp only at h
        cases hr : zLoopTrace n s x (z + d) d m with
        | none => rw [hr] at h; simp at h
        | some r =>
          obtain ⟨b2, s2, z2, calls2⟩ := r
          rw [hr] at h
          simp only [Option.some.injEq, Prod.mk.injEq] at h
          obtain ⟨hb, hs, hx, hcalls⟩ := h
          subst hb; subst hs; subst hx; subst hcalls
          obtain ⟨i1, i2, i3, i4⟩ := ih (z + d) calls2 hr
          have hk := step_mul_unit z d hd
          rw [hk] at i1 i2 i3 i4
          refine ⟨?_, ?_, ?_, ?_⟩
          · intro c hc2
            rcases List.mem_cons.mp hc2 with hc2 | hc2
            · subst hc2
              exact ⟨rfl, le_refl _, hlt⟩
            · obtain ⟨j1, j2, j3⟩ := i1 c hc2
              exact ⟨j1, by omega, j3⟩
          · simp only [List.length_cons]
            omega
          · intro hb
            obtain ⟨j1, j2, j3, j4⟩ := i3 hb
            refine ⟨j1, j2, Or.inr ?_, ?_⟩
            · rcases j3 with j3 | j3
              · rw [j3, hk]; omega
              · exact j3
            · intro a ha1 ha2
              by_cases hax : a * d = z * d
              · have := mul_eq_of_unit a z d hd hax
                subst this
                exact not_accepts_of_false s _ _ hc
              · exact j4 a (by omega) ha2
          · intro hb
            obtain ⟨j1, j2, j3, j4, earlier, j5⟩ := i4 hb
            exact ⟨j1, j2, j3, by omega, (x, z) :: earlier, by rw [j5]; rfl⟩
      · rw [hc] at h
        simp only [Option.some.injEq, Prod.mk.injEq] at h
        obtain ⟨hb, hs, hx, hcalls⟩ := h
        subst hb; subst hs; subst hx; subst hcalls
        refine ⟨?_, ?_, ?_, ?_⟩
        · intro c hc2
          simp only [List.mem_singleton] at hc2
          subst hc2
          exact ⟨rfl, le_refl _, hlt⟩
        · simp only [List.length_singleton]
          omega
        · intro hb; simp at hb
        · intro _
          exact ⟨rfl, ha, hlt, le_refl _, [], rfl⟩
    · rename_i hlt
      rw [mul_assoc] at hlt
      simp only [Option.some.injEq, Prod.mk.injEq] at h
      obtain ⟨hb, hs, hx, hcalls⟩ := h
      subst hb; subst hs; subst hx; subst hcalls
      refine ⟨?_, ?_, ?_, ?_⟩
      · intro c hc2; simp at hc2
      · simp
      · intro _
        exact ⟨rfl, by omega, Or.inl rfl, fun a ha1 ha2 => by omega⟩
      · intro hb; simp at hb


theorem chebyshev_facts (a c d : Int) (hd : d = 1 ∨ d = -1) :
    a * d ≤ chebyshev (a, c) ∧ -(a * d) ≤ chebyshev (a, c) ∧
    c * d ≤ chebyshev (a, c) ∧ -(c * d) ≤ chebyshev (a, c) ∧
    (chebyshev (a, c) = a * d ∨ chebyshev (a, c) = -(a * d) ∨
      chebyshev (a, c) = c * d ∨ chebyshev (a, c) = -(c * d)) := by
  unfold chebyshev
  simp only
  have h1 := le_abs_self a
  have h2 := neg_abs_le a
  have h3 := le_abs_self c
  have h4 := neg_abs_le c
  have h5 : |a| = a ∨ |a| = -a := abs_choice a
  have h6 : |c| = c ∨ |c| = -c := abs_choice c
  rcases hd with hd | hd <;> subst hd <;> simp only [mul_one, mul_neg, neg_neg] <;>
    rcases h5 with h5 | h5 <;> rcases h6 with h6 | h6 <;> omega

theorem neg_unit_mul (a d : Int) : a * (-1 * d) = -(a * d) := by ring

/-- What the outer loop does from the start of ring `m` on, read off its record, when the
loop variables are at their ring start and every offset the rings before `m` visit is
rejected. -/
theorem ringLoopTrace_spec (fuel n : Nat) (s : TileManager) (x z d m : Int) (b : Bool)
    (s1 : TileManager) (rings : Nat) (calls : List (Int × Int))
    (hd : d = 1 ∨ d = -1) (hm : 1 ≤ m)
    (hx : -m ≤ 2 * (x * d) ∧ 2 * (x * d) ≤ -m + 1)
    (hz : -m ≤ 2 * (z * d) ∧ 2 * (z * d) ≤ -m + 1)
    (hreg : ∀ a c, -m ≤ 2 * (a * d) → 2 * (a * d) < m → -m + 2 ≤ 2 * (c * d) →
      2 * (c * d) < m → ¬ s.accepts (s.tile.x + a) (s.tile.y + c))
    (h : ringLoopTrace fuel n s x z d m = some (b, s1, rings, calls)) :
    calls.Pairwise (fun p q => chebyshev p ≤ chebyshev q) ∧
    (∀ p, p ∈ calls → m - 1 ≤ 2 * chebyshev p) ∧
    (1 ≤ rings →
      (m : ℚ) + (rings : ℚ) - 1 < Math.max s.viewDistanceX s.viewDistanceZ * 2 + 1) ∧
    (calls.length : Int) ≤ 2 * (rings : Int) * (m + (rings : Int)) ∧
    (b = false → s1 = s) ∧
    (b = true → ∃ a c earlier, s1 = s.withLoad (s.tile.x + a) (s.tile.y + c) ∧
      s.accepts (s.tile.x + a) (s.tile.y + c) ∧ calls = earlier ++ [(a, c)] ∧
      ∀ a2 c2, chebyshev (a2, c2) < chebyshev (a, c) →
        ¬ s.accepts (s.tile.x + a2) (s.tile.y + c2)) := by
  induction n generalizing x z d m b s1 rings calls with
  | zero => simp [ringLoopTrace] at h
  | succ n ih =>
    unfold ringLoopTrace at h
    split at h
    · rename_i hlt
      cases hrx : xLoopTrace fuel s x z d m with
      | none => rw [hrx] at h; simp at h
      | some rx =>
        obtain ⟨bx, sx, x1, cx⟩ := rx
        rw [hrx] at h
        obtain ⟨xc, xl, xf, xt⟩ := xLoopTrace_spec fuel s x z d m bx sx x1 cx hd hrx
        -- the Chebyshev distance of the calls of the first inner loop
        have xband : ∀ p, p ∈ cx → m - 1 ≤ 2 * chebyshev p ∧ 2 * chebyshev p ≤ m := by
          intro p hp
          obtain ⟨p1, p2, p3⟩ := xc p hp
          obtain ⟨pa, pc⟩ := p
          simp only at p1 p2 p3
          subst p1
          obtain ⟨f1, f2, f3, f4, f5⟩ := chebyshev_facts pa pc d hd
          constructor
          · omega
          · rcases f5 with f5 | f5 | f5 | f5 <;> omega
        have xlen : (cx.length : Int) ≤ m := by omega
        cases bx with
        | true =>
          simp only [Option.some.injEq, Prod.mk.injEq] at h
          obtain ⟨hb, hs, hr, hcalls⟩ := h
          subst hb; subst hs; subst hr; subst hcalls
          obtain ⟨t1, t2, t3, t4, earlier, t5⟩ := xt rfl
          refine ⟨?_, ?_, ?_, ?_, ?_, ?_⟩
          · apply List.pairwise_of_forall_mem_list
            intro p hp q hq
            have := xband p hp
            have := xband q hq
            omega
          · intro p hp; exact (xband p hp).1
          · intro _
            simp only [Nat.cast_one]
            linarith
          · simp only [Nat.cast_one]
            omega
          · intro hb; simp at hb
          · intro _
            refine ⟨x1, z, earlier, t1, t2, t5, ?_⟩
            intro a2 c2 hlt2
            have hp : (x1, z) ∈ cx := by rw [t5]; simp
            have hb1 := xband (x1, z) hp
            obtain ⟨f1, f2, f3, f4, _⟩ := chebyshev_facts a2 c2 d hd
            exact hreg a2 c2 (by omega) (by omega) (by omega) (by omega)
        | false =>
          obtain ⟨hsx, ex1, ex2, rowx⟩ := xf rfl
          subst hsx
          have ex3 : 2 * (x1 * d) < m + 2 := by
            rcases ex2 with ex2 | ex2
            · rw [ex2]; omega
            · exact ex2
          simp only at h
          cases hrz : zLoopTrace fuel sx x1 z d m with
          | none => rw [hrz] at h; simp at h
          | some rz =>
            obtain ⟨bz, sz, z1, cz⟩ := rz
            rw [hrz] at h
            obtain ⟨zc, zl, zf, zt⟩ := zLoopTrace_spec fuel sx x1 z d m bz sz z1 cz hd hrz
            have zband : ∀ p, p ∈ cz → m ≤ 2 * chebyshev p ∧ 2 * chebyshev p ≤ m + 1 := by
              intro p hp
              obtain ⟨p1, p2, p3⟩ := zc p hp
              obtain ⟨pa, pc⟩ := p
              simp only at p1 p2 p3
              subst p1
              obtain ⟨f1, f2, f3, f4, f5⟩ := chebyshev_facts pa pc d hd
              constructor
              · omega
              · rcases f5 with f5 | f5 | f5 | f5 <;> omega
            have zlen : (cz.length : Int) ≤ m := by omega
            -- every offset within the square of ring `m` that was visited so far
            have hsq : ∀ a c, -m ≤ 2 * (a * d) → 2 * (a * d) < m → -m ≤ 2 * (c * d) →
                2 * (c * d) < m → ¬ sx.accepts (sx.tile.x + a) (sx.tile.y + c) := by
              intro a c h1 h2 h3 h4
              by_cases hc : -m + 2 ≤ 2 * (c * d)
              · exact hreg a c h1 h2 hc h4
              · have hcz : c * d = z * d := by omega
                have := mul_eq_of_unit c z d hd hcz
                subst this
                exact rowx a (by omega) h2
            have xzPair : (cx ++ cz).Pairwise (fun p q => chebyshev p ≤ chebyshev q) := by
              rw [List.pairwise_append]
              refine ⟨?_, ?_, ?_⟩
              · apply List.pairwise_of_forall_mem_list
                intro p hp q hq
                have := xband p hp
                have := xband q hq
                omega
              · apply List.pairwise_of_forall_mem_list
                intro p hp q hq
                have := zband p hp
                have := zband q hq
                omega
              · intro p hp q hq
                have := xband p hp
                have := zband q hq
                omega
            have xzBand : ∀ p, p ∈ cx ++ cz →
                m - 1 ≤ 2 * chebyshev p ∧ 2 * chebyshev p ≤ m + 1 := by
              intro p hp
              rcases List.mem_append.mp hp with hp | hp
              · have := xband p hp; omega
              · have := zband p hp; omega
            cases bz with
            | true =>
              simp only [Option.some.injEq, Prod.mk.injEq] at h
              obtain ⟨hb, hs, hr, hcalls⟩ := h
              subst hb; subst hs; subst hr; subst hcalls
              obtain ⟨t1, t2, t3, t4, earlier, t5⟩ := zt rfl
              refine ⟨xzPair, fun p hp => (xzBand p hp).1, ?_, ?_, ?_, ?_⟩
              · intro _
                simp only [Nat.cast_one]
                linarith
              · simp only [Nat.cast_one, List.length_append, Nat.cast_add]
                omega
              · intro hb; simp at hb
              · intro _
                refine ⟨x1, z1, cx ++ earlier, t1, t2, by rw [t5, List.append_assoc], ?_⟩
                intro a2 c2 hlt2
                have hp : (x1, z1) ∈ cz := by rw [t5]; simp
                have hb1 := zband (x1, z1) hp
                obtain ⟨f1, f2, f3, f4, _⟩ := chebyshev_facts a2 c2 d hd
                exact hsq a2 c2 (by omega) (by omega) (by omega) (by omega)
            | false =>
              obtain ⟨hsz, ez1, ez2, rowz⟩ := zf rfl
              subst hsz
              have ez3 : 2 * (z1 * d) < m + 2 := by
                rcases ez2 with ez2 | ez2
                · rw [ez2]; omega
                · exact ez2
              simp only at h
              cases hrr : ringLoopTrace fuel n sz x1 z1 (-1 * d) (m + 1) with
              | none => rw [hrr] at h; simp at h
              | some rr =>
                obtain ⟨br, sr, r, rest⟩ := rr
                rw [hrr] at h
                simp only [Option.some.injEq, Prod.mk.injEq] at h
                obtain ⟨hb, hs, hr, hcalls⟩ := h
                subst hb; subst hs; subst hr; subst hcalls
                have hd2 : -1 * d = 1 ∨ -1 * d = -1 := by
                  rcases hd with hd | hd <;> subst hd <;> simp
                have hreg2 : ∀ a c, -(m + 1) ≤ 2 * (a * (-1 * d)) →
                    2 * (a * (-1 * d)) < m + 1 → -(m + 1) + 2 ≤ 2 * (c * (-1 * d)) →
                    2 * (c * (-1 * d)) < m + 1 →
                    ¬ sz.accepts (sz.tile.x + a) (sz.tile.y + c) := by
                  intro a c h1 h2 h3 h4
                  rw [neg_unit_mul] at h1 h2 h3 h4
                  by_cases ha : 2 * (a * d) < m
                  · exact hsq a c (by omega) ha (by omega) (by omega)
                  · have hax : a * d = x1 * d := by omega
                    have := mul_eq_of_unit a x1 d hd hax
                    subst this
                    exact rowz c (by omega) (by omega)
                obtain ⟨i1, i2, i3, i4, i5, i6⟩ := ih x1 z1 (-1 * d) (m + 1) br sr r rest hd2
                  (by omega)
                  (by rw [neg_unit_mul]; constructor <;> omega)
                  (by rw [neg_unit_mul]; constructor <;> omega)
                  hreg2 hrr
                refine ⟨?_, ?_, ?_, ?_, i5, ?_⟩
                · rw [List.pairwise_append]
                  refine ⟨xzPair, i1, ?_⟩
                  intro p hp q hq
                  have := xzBand p hp
                  have := i2 q hq
                  omega
                · intro p hp
                  rcases List.mem_append.mp hp with hp | hp
                  · exact (xzBand p hp).1
                  · have := i2 p hp; omega
                · intro _
                  by_cases hr1 : 1 ≤ r
                  · have := i3 hr1
                    push_cast at this ⊢
                    linarith
                  · have hr0 : r = 0 := by omega
                    subst hr0
                    simp only [Nat.cast_zero, zero_add, Nat.cast_one]
                    linarith
                · simp only [List.length_append, Nat.cast_add, Nat.cast_one]
                  have e : 2 * ((r : Int) + 1) * (m + ((r : Int) + 1)) =
                      2 * (r : Int) * (m + 1 + (r : Int)) + 2 * (m + (r : Int) + 1) := by ring
                  rw [e]
                  have hr0 : (0 : Int) ≤ (r : Int) := Int.natCast_nonneg r
                  linarith
                · intro hb
                  obtain ⟨a, c, earlier, j1, j2, j3, j4⟩ := i6 hb
                  exact ⟨a, c, cx ++ cz ++ earlier, j1, j2,
                    by rw [j3, List.append_assoc (cx ++ cz)], j4⟩
    · simp only [Option.some.injEq, Prod.mk.injEq] at h
      obtain ⟨hb, hs, hr, hcalls⟩ := h
      subst hb; subst hs; subst hr; subst hcalls
      refine ⟨List.Pairwise.nil, ?_, ?_, ?_, fun _ => rfl, ?_⟩
      · intro p hp; simp at hp
      · intro h1; omega
      · simp
      · intro hb; simp at hb


/-- The record of one call of `loadNextTile`, from `ringLoopTrace_spec` at the start of the
search. -/
theorem loadNextTileTrace_spec (s : TileManager) :
    s.visited.Pairwise (fun p q => chebyshev p ≤ chebyshev q) ∧
    (1 ≤ s.ringsRun →
      (s.ringsRun : ℚ) < Math.max s.viewDistanceX s.viewDistanceZ * 2 + 1) ∧
    (s.visited.length : Int) ≤ 2 * (s.ringsRun : Int) * (1 + (s.ringsRun : Int)) ∧
    (s.loadNextTile.1 = false → s.loadNextTile.2 = s) ∧
    (s.loadNextTile.1 = true → ∃ a c earlier,
      s.loadNextTile.2 = s.withLoad (s.tile.x + a) (s.tile.y + c) ∧
      s.accepts (s.tile.x + a) (s.tile.y + c) ∧ s.visited = earlier ++ [(a, c)] ∧
      ∀ a2 c2, chebyshev (a2, c2) < chebyshev (a, c) →
        ¬ s.accepts (s.tile.x + a2) (s.tile.y + c2)) := by
  obtain ⟨h1, h2⟩ := loadNextTileTrace_erase s
  obtain ⟨i1, _, i3, i4, i5, i6⟩ := ringLoopTrace_spec s.spiralFuel s.spiralFuel s 0 0 1 1
    s.loadNextTileTrace.1 s.loadNextTileTrace.2.1 s.loadNextTileTrace.2.2.1
    s.loadNextTileTrace.2.2.2 (Or.inl rfl) (le_refl _)
    (by constructor <;> simp) (by constructor <;> simp)
    (by intro a c _ _ h3 h4; omega) h1
  have e1 : s.loadNextTile.1 = s.loadNextTileTrace.1 := by rw [← h2]
  have e2 : s.loadNextTile.2 = s.loadNextTileTrace.2.1 := by rw [← h2]
  refine ⟨i1, ?_, i4, ?_, ?_⟩
  · intro hr
    have := i3 hr
    simp only [Int.cast_one] at this
    unfold ringsRun
    linarith
  · rw [e1, e2]; exact i5
  · rw [e1, e2]; exact i6

/-- Claim C14.  The offsets at which one call of `loadNextTile` calls `tryLoadTile` come in
non-decreasing Chebyshev distance from the center.  When the call dispatches a load, it does
so at the last offset `(x, z)` it visited, and every coordinate inside the window whose offset
from the center has a strictly smaller Chebyshev distance than `(x, z)` has a cache entry. -/
theorem loadNextTile_nearest_first (s : TileManager) :
    s.visited.Pairwise (fun p q => chebyshev p ≤ chebyshev q) ∧
    (s.loadNextTile.1 = true → ∃ x z earlier,
      s.visited = earlier ++ [(x, z)] ∧
      s.tryLoadTile (s.tile.x + x) (s.tile.y + z) = (true, s.loadNextTile.2) ∧
      ∀ x2 z2, chebyshev (x2, z2) < chebyshev (x, z) →
        s.inWindow (s.tile.x + x2) (s.tile.y + z2) →
        s.tiles.get (hashTile (s.tile.x + x2) (s.tile.y + z2)) ≠ none) := by
  obtain ⟨h1, _, _, _, h5⟩ := loadNextTileTrace_spec s
  refine ⟨h1, ?_⟩
  intro hb
  obtain ⟨a, c, earlier, j1, j2, j3, j4⟩ := h5 hb
  refine ⟨a, c, earlier, j3, ?_, ?_⟩
  · rw [tryLoadTile_accepts s _ _ j2, j1]
  · intro x2 z2 hlt hwin hget
    apply j4 x2 z2 hlt
    refine ⟨j2.1, ?_, hget⟩
    rw [Math.abs_eq_abs]
    exact not_lt.mpr hwin.1

/-- Claim C19 fails as stated for a negative radius: with both radii -1 the outer loop of
`loadNextTile` does not run at all, and 0 is not less than `2 * max(vdx, vdz) + 1 = -1`. -/
theorem rings_bound_fails_negative_radius :
    (spiralExample (-1)).ringsRun = 0 ∧
    ¬ (((spiralExample (-1)).ringsRun : ℚ) <
      Math.max (spiralExample (-1)).viewDistanceX (spiralExample (-1)).viewDistanceZ * 2 + 1) := by
  with_unfolding_all decide

theorem xLoopTrace_some (fuel : Nat) (s : TileManager) (x z d m : Int)
    (hd : d = 1 ∨ d = -1) (hf : ((m - 2 * (x * d) + 1) / 2).toNat < fuel) :
    ∃ r, xLoopTrace fuel s x z d m = some r := by
  obtain ⟨r, hr⟩ := xLoop_some fuel s x z d m hd hf
  have h := xLoopTrace_erase fuel s x z d m
  rw [hr] at h
  cases ht : xLoopTrace fuel s x z d m with
  | none => rw [ht] at h; simp at h
  | some rt => exact ⟨rt, rfl⟩

theorem zLoopTrace_some (fuel : Nat) (s : TileManager) (x z d m : Int)
    (hd : d = 1 ∨ d = -1) (hf : ((m - 2 * (z * d) + 1) / 2).toNat < fuel) :
    ∃ r, zLoopTrace fuel s x z d m = some r := by
  obtain ⟨r, hr⟩ := zLoop_some fuel s x z d m hd hf
  have h := zLoopTrace_erase fuel s x z d m
  rw [hr] at h
  cases ht : zLoopTrace fuel s x z d m with
  | none => rw [ht] at h; simp at h
  | some rt => exact ⟨rt, rfl⟩

/-- Claim C19, amended.  `loadNextTile` terminates for every center tile, every cache and all
radii: with `spiralFuel` iterations for each loop the method returns its result.  The outer
loop enters its body fewer than `2 * max(vdx, vdz) + 1` times whenever it enters it at all,
and so whenever `max(vdx, vdz)` is greater than -1/2.  An inner loop started at `x` (or `z`)
with step `d` of 1 or -1 raises `x * d` (or `z * d`) by one in each iteration, returns
within `ceil((m - 2 * x * d) / 2) + 1` tests of its condition and calls `tryLoadTile` at most
`ceil((m - 2 * x * d) / 2)` times.  One call of `loadNextTile` that enters `n` rings calls
`tryLoadTile` at most `2 * n * (n + 1)` times. -/
theorem loadNextTile_terminates (s : TileManager) :
    loadNextTileFuel s.spiralFuel s = some s.loadNextTile ∧
    (1 ≤ s.ringsRun →
      (s.ringsRun : ℚ) < Math.max s.viewDistanceX s.viewDistanceZ * 2 + 1) ∧
    (-1 / 2 < Math.max s.viewDistanceX s.viewDistanceZ →
      (s.ringsRun : ℚ) < Math.max s.viewDistanceX s.viewDistanceZ * 2 + 1) ∧
    (∀ x d : Int, d = 1 ∨ d = -1 → (x + d) * d = x * d + 1) ∧
    (∀ (fuel : Nat) (x z d m : Int), (d = 1 ∨ d = -1) →
      ((m - 2 * (x * d) + 1) / 2).toNat < fuel →
      ∃ r, xLoopTrace fuel s x z d m = some r ∧
        r.2.2.2.length ≤ ((m - 2 * (x * d) + 1) / 2).toNat) ∧
    (∀ (fuel : Nat) (x z d m : Int), (d = 1 ∨ d = -1) →
      ((m - 2 * (z * d) + 1) / 2).toNat < fuel →
      ∃ r, zLoopTrace fuel s x z d m = some r ∧
        r.2.2.2.length ≤ ((m - 2 * (z * d) + 1) / 2).toNat) ∧
    (s.visited.length : Int) ≤ 2 * (s.ringsRun : Int) * (1 + (s.ringsRun : Int)) := by
  obtain ⟨_, h2, h3, _, _⟩ := loadNextTileTrace_spec s
  refine ⟨loadNextTileFuel_spiralFuel s, h2, ?_, fun x d hd => step_mul_unit x d hd, ?_, ?_, h3⟩
  · intro hM
    by_cases hr : 1 ≤ s.ringsRun
    · exact h2 hr
    · have hr0 : s.ringsRun = 0 := by omega
      rw [hr0]
      simp only [Nat.cast_zero]
      linarith
  · intro fuel x z d m hd hf
    obtain ⟨r, hr⟩ := xLoopTrace_some fuel s x z d m hd hf
    obtain ⟨b, s1, x1, calls⟩ := r
    exact ⟨_, hr, (xLoopTrace_spec fuel s x z d m b s1 x1 calls hd hr).2.1⟩
  · intro fuel x z d m hd hf
    obtain ⟨r, hr⟩ := zLoopTrace_some fuel s x z d m hd hf
    obtain ⟨b, s1, z1, calls⟩ := r
    exact ⟨_, hr, (zLoopTrace_spec fuel s x z d m b s1 z1 calls hd hr).2.1⟩

end TileManager

end BlueMap
